import Mathlib

/-! Pairing handshake of `pkg/pair/pair.go`.

A shallow embedding of the Go package `pair`: the tag-length-value codec
(`parseStringByte`, `buildStringByte`), the session record `Pair`, its message
handlers and the key derivation chain, followed by the properties proved about
them.

Conventions of the embedding.

* A Go `byte` is a `UInt8`; a Go `string` is the list of its bytes.
* A received payload is a Go slice: it has a length and a capacity, and a slice
  expression `s[:n]` or `s[lo:hi]` may reach past the length as long as it stays
  within the capacity.  `Slice` keeps both parts.
* A run-time panic (index or slice bounds out of range) is the outcome `panic`,
  distinct from a returned `error`.
* The external packages `crypto/ecdh` and `jacobsa/crypto/cmac` are a parameter
  `Crypto`; `crypto/rand` is an explicit argument `Entropy`.
-/

namespace PodFive

/-! ## Bytes, strings and slices -/

/-- The contents of a Go `[]byte`. -/
abbrev Bytes := List UInt8

/-- A Go `string`, as its sequence of bytes. -/
abbrev GoString := List UInt8

/-- A Go byte slice seen from its first element: `vis` holds the elements below
`len`, `spare` the elements of the backing array from `len` up to `cap`. -/
structure Slice where
  vis : Bytes
  spare : Bytes
deriving DecidableEq, Repr

namespace Slice

/-- Go `len(s)`. -/
def len (s : Slice) : Nat := s.vis.length

/-- Go `cap(s)`. -/
def cap (s : Slice) : Nat := s.vis.length + s.spare.length

/-- The backing array from the first element of the slice up to its capacity. -/
def arr (s : Slice) : Bytes := s.vis ++ s.spare

/-- Go `s[:n]`: needs `n ≤ cap(s)`, otherwise the run time panics (`none`). -/
def sliceTo (s : Slice) (n : Nat) : Option Slice :=
  if n ≤ s.cap then some ⟨s.arr.take n, s.arr.drop n⟩ else none

/-- Go `s[n:]`: needs `n ≤ len(s)`, otherwise the run time panics (`none`). -/
def sliceFrom (s : Slice) (n : Nat) : Option Slice :=
  if n ≤ s.len then some ⟨s.vis.drop n, s.spare⟩ else none

/-- Go `s[lo:hi]`: needs `lo ≤ hi ≤ cap(s)`, otherwise the run time panics. -/
def slice (s : Slice) (lo hi : Nat) : Option Slice :=
  if lo ≤ hi ∧ hi ≤ s.cap then some ⟨(s.arr.take hi).drop lo, s.arr.drop hi⟩ else none

/-- Go `s[i]`: needs `i < len(s)`, otherwise the run time panics (`none`). -/
def index (s : Slice) (i : Nat) : Option UInt8 := s.vis[i]?

end Slice

/-! ## Outcomes -/

/-- The places where the package builds an `error` value. -/
inductive Error where
  /-- `parseStringByte`: "Name not found %s in %x". -/
  | nameNotFound
  /-- `ParseSPS2`: "Invalid conf value. Expected: %x. Got %x". -/
  | invalidConf
  /-- `ParseSP0GP0`: "Expected SP0GP0, got %x". -/
  | expectedSP0GP0
  /-- `LTK`: "Missing  enough data to compute LTK". -/
  | missingData
  /-- `ecdh.P256().NewPrivateKey` refused the bytes. -/
  | invalidPrivateKey
  /-- `ecdh.P256().NewPublicKey` refused the bytes. -/
  | invalidPublicKey
  /-- `privateKey.ECDH` failed. -/
  | ecdhFailed
  /-- `cmac.New` refused the key. -/
  | cmacKeySize
deriving DecidableEq, Repr

/-- What a call of a function without receiver does: it returns a value and a
nil error, or a non-nil error (and then no value), or it panics. -/
inductive Outcome (α : Type) where
  | ok (a : α)
  | error (e : Error)
  | panic
deriving DecidableEq, Repr

/-! ## Maps keyed by strings -/

/-- A Go `map[string]V`, as an association list with one entry per key. -/
abbrev FieldMap (V : Type) := List (GoString × V)

namespace FieldMap

/-- Go `m[k]` with the presence flag: the value stored under `k`, if any. -/
def get {V : Type} (m : FieldMap V) (k : GoString) : Option V :=
  match m with
  | [] => none
  | (k1, v) :: rest => if k1 = k then some v else get rest k

/-- Go `delete(m, k)`: the map without its entry under `k`. -/
def remove {V : Type} (m : FieldMap V) (k : GoString) : FieldMap V :=
  match m with
  | [] => []
  | (k1, v) :: rest => if k1 = k then remove rest k else (k1, v) :: remove rest k

/-- Go `m[k] = v`: the entry under `k` is replaced or created. -/
def set {V : Type} (m : FieldMap V) (k : GoString) (v : V) : FieldMap V :=
  (k, v) :: m.remove k

/-- Go `m[k]` for a `map[string][]byte`: a missing key reads as the nil slice,
whose contents are empty. -/
def bytesAt (m : FieldMap Bytes) (k : GoString) : Bytes :=
  (m.get k).getD []

end FieldMap

/-! ## The tag-length-value codec -/

/-- The loop of `parseStringByte`: `data` is what is left of the payload, `ret`
the map filled so far. -/
def parseLoop : List GoString → Slice → FieldMap Slice → Outcome (FieldMap Slice)
  | [], _, ret => .ok ret
  | name :: rest, data, ret =>
    let n := name.length
    -- string(data[:n]) != name
    match data.sliceTo n with
    | none => .panic
    | some head =>
      if head.vis ≠ name then .error .nameNotFound
      else
        -- data = data[n:]
        match data.sliceFrom n with
        | none => .panic
        | some data1 =>
          -- length := int(data[0])<<8 | int(data[1])
          match data1.index 0, data1.index 1 with
          | some b0, some b1 =>
            let length := b0.toNat <<< 8 ||| b1.toNat
            -- ret[name] = data[2 : 2+length]
            match data1.slice 2 (2 + length) with
            | none => .panic
            | some value =>
              -- data = data[2+length:]
              match data1.sliceFrom (2 + length) with
              | none => .panic
              | some data2 => parseLoop rest data2 (ret.set name value)
          | _, _ => .panic

/-- Go `parseStringByte(expectedNames, data)`. -/
def parseStringByte (expectedNames : List GoString) (data : Slice) :
    Outcome (FieldMap Slice) :=
  parseLoop expectedNames data []

/-- The two length bytes that `buildStringByte` writes for a value of `n`
bytes: `byte(n >> 8 & 0xff)` and `byte(n & 0xff)`. -/
def lengthBytes (n : Nat) : Bytes :=
  [UInt8.ofNat (n >>> 8 &&& 0xff), UInt8.ofNat (n &&& 0xff)]

/-- The loop of `buildStringByte`: `buf` is the contents of the buffer. -/
def buildLoop : List GoString → FieldMap Bytes → Bytes → Bytes
  | [], _, buf => buf
  | name :: rest, values, buf =>
    buildLoop rest values
      (buf ++ name ++ lengthBytes (values.bytesAt name).length ++ values.bytesAt name)

/-- Go `buildStringByte(names, values)`: the contents of the returned slice.
The returned error is always nil. -/
def buildStringByte (names : List GoString) (values : FieldMap Bytes) : Outcome Bytes :=
  .ok (buildLoop names values [])

/-! ## External packages -/

/-- The functions of `crypto/ecdh` (curve P-256) and `jacobsa/crypto/cmac` that
the package calls.  They are not part of the package: they are taken as given,
together with the two facts about them that the package relies on. -/
structure Crypto where
  /-- Whether `ecdh.P256().NewPrivateKey(b)` returns no error. -/
  validPrivate : Bytes → Bool
  /-- Whether `ecdh.P256().NewPublicKey(b)` returns no error. -/
  validPublic : Bytes → Bool
  /-- The result of `privateKey.ECDH(publicKey)`, from the bytes of the two keys:
  the shared secret, or `none` when it returns an error. -/
  ecdh : Bytes → Bytes → Option Bytes
  /-- The AES-CMAC of `data` under `key`: what `h.Sum([]byte{})` returns after
  `h, _ := cmac.New(key)` and `h.Write(data)`. -/
  cmac : Bytes → Bytes → Bytes
  /-- A public key that `NewPublicKey` accepts is an uncompressed point of 65
  bytes. -/
  validPublic_length : ∀ b, validPublic b = true → b.length = 65
  /-- A CMAC is one AES block long. -/
  cmac_length : ∀ key data, (cmac key data).length = 16

/-- Whether `cmac.New(key)` returns no error: the key has to be an AES key, of
16, 24 or 32 bytes. -/
def cmacNew (key : Bytes) : Bool :=
  decide (key.length = 16 ∨ key.length = 24 ∨ key.length = 32)

/-- What `computeMyData` draws from `crypto/rand`: the 16 bytes that
`rand.Read` writes into the nonce and the key pair that `GenerateKey` returns,
the public key in the form `Bytes()` gives it (`0x04`, then X and Y). -/
structure Entropy where
  nonce : Bytes
  privateKey : Bytes
  publicKey : Bytes
  nonce_length : nonce.length = 16
  privateKey_length : privateKey.length = 32
  publicKey_length : publicKey.length = 65

/-- The kind of a transport message; the package only builds pairing
messages. -/
inductive MessageType where
  | pairing
  | other
deriving DecidableEq, Repr

/-- Modelled from the spec: the type `message.Message` of the package
`pkg/message`, which is not among the sources: a kind, a source and a
destination identifier and a payload. -/
structure Message where
  msgType : MessageType
  source : Option Bytes
  destination : Option Bytes
  payload : Slice
deriving DecidableEq, Repr

/-- Modelled from the spec: `message.NewMessage(t, source, destination)` of the
package `pkg/message`, which is not among the sources; the payload is filled in
by the caller.  The spare capacity of an outgoing payload is not modelled. -/
def NewMessage (t : MessageType) (source destination : Option Bytes) (payload : Bytes) :
    Message :=
  ⟨t, source, destination, ⟨payload, []⟩⟩

/-! ## Constants -/

/-- The string `"SP1="`. -/
def sp1 : GoString := [0x53, 0x50, 0x31, 0x3d]

/-- The string `",SP2="`. -/
def sp2 : GoString := [0x2c, 0x53, 0x50, 0x32, 0x3d]

/-- The string `"SPS0="`. -/
def sps0 : GoString := [0x53, 0x50, 0x53, 0x30, 0x3d]

/-- The string `"SPS1="`. -/
def sps1 : GoString := [0x53, 0x50, 0x53, 0x31, 0x3d]

/-- The string `"SPS2="`. -/
def sps2 : GoString := [0x53, 0x50, 0x53, 0x32, 0x3d]

/-- The string `"SP0,GP0"`. -/
def sp0gp0 : GoString := [0x53, 0x50, 0x30, 0x2c, 0x47, 0x50, 0x30]

/-- The string `"P0="`. -/
def p0 : GoString := [0x50, 0x30, 0x3d]

/-- The string `"TWIt"`. -/
def twit : GoString := [0x54, 0x57, 0x49, 0x74]

/-- The string `"KC_2_U"`. -/
def kc2u : GoString := [0x4b, 0x43, 0x5f, 0x32, 0x5f, 0x55]

/-- The string `"KC_2_V"`. -/
def kc2v : GoString := [0x4b, 0x43, 0x5f, 0x32, 0x5f, 0x56]

/-! ## The session -/

/-- The struct `Pair`.  A field is `none` when the Go slice is nil. -/
structure Pair where
  podPublic : Option Bytes
  podPrivate : Option Bytes
  podNonce : Option Bytes
  podConf : Option Bytes
  pdmPublic : Option Bytes
  pdmNonce : Option Bytes
  pdmConf : Option Bytes
  sps0 : Option Bytes
  sharedSecret : Option Bytes
  pdmID : Option Bytes
  podID : Option Bytes
  ltk : Option Bytes
  confKey : Option Bytes
deriving DecidableEq, Repr

/-- The zero value `Pair{}`: every field nil. -/
def Pair.fresh : Pair :=
  ⟨none, none, none, none, none, none, none, none, none, none, none, none, none⟩

/-- What a call of a method of `*Pair` does: it returns with the session in
state `c` and a value (nil error), or with the session in state `c` and a
non-nil error, or it panics. -/
inductive Exec (α : Type) where
  | done (c : Pair) (a : α)
  | fail (c : Pair) (e : Error)
  | panic
deriving DecidableEq, Repr

/-- The bytes of a slice held in a session field; nil has none. -/
def bytesOf (b : Option Bytes) : Bytes := b.getD []

/-- Go `copy(dst, src)`: the new contents of `dst`, whose first
`min(len(dst), len(src))` elements are overwritten. -/
def goCopy (dst src : Bytes) : Bytes :=
  src.take dst.length ++ dst.drop src.length

/-- Go `b[len(b)-n:]`: the last `n` bytes; the run time panics (`none`) when
`b` is shorter than `n`. -/
def lastBytes (b : Bytes) (n : Nat) : Option Bytes :=
  if n ≤ b.length then some (b.drop (b.length - n)) else none

/-- Go `sp[name]` on the map that `parseStringByte` returned: a missing key
reads as the nil slice. -/
def fieldAt (sp : FieldMap Slice) (name : GoString) : Slice :=
  (sp.get name).getD ⟨[], []⟩

/-! ## Key material -/

/-- The method `computeMyData`. -/
def computeMyData (c : Pair) (rnd : Entropy) : Exec Unit :=
  .done { c with
    podNonce := some rnd.nonce
    podPrivate := some rnd.privateKey
    -- podPrivate.PublicKey().Bytes()[1:]
    podPublic := some (rnd.publicKey.drop 1) } ()

/-- The byte string `tag || "TWIt" || podNonce || pdmNonce || 0x00 0x01` that
`computePairData` writes into `bbData` (tag `0x01`) and `abData` (tag `0x02`). -/
def twitData (tag : UInt8) (c : Pair) : Bytes :=
  [tag] ++ twit ++ bytesOf c.podNonce ++ bytesOf c.pdmNonce ++ [0x00, 0x01]

/-- The method `computePairData`. -/
def computePairData (K : Crypto) (c : Pair) : Exec Unit :=
  -- privateKey, err := ecdh.P256().NewPrivateKey(c.podPrivate)
  if K.validPrivate (bytesOf c.podPrivate) = false then .fail c .invalidPrivateKey
  -- publicKey, err := ecdh.P256().NewPublicKey(append([]byte{0x04}, c.pdmPublic...))
  else if K.validPublic (0x04 :: bytesOf c.pdmPublic) = false then .fail c .invalidPublicKey
  else
    -- c.sharedSecret, err = privateKey.ECDH(publicKey)
    match K.ecdh (bytesOf c.podPrivate) (0x04 :: bytesOf c.pdmPublic) with
    | none => .fail { c with sharedSecret := none } .ecdhFailed
    | some secret =>
      let c1 := { c with sharedSecret := some secret }
      match lastBytes (bytesOf c1.podPublic) 4, lastBytes (bytesOf c1.pdmPublic) 4,
          lastBytes (bytesOf c1.podNonce) 4, lastBytes (bytesOf c1.pdmNonce) 4 with
      | some e1, some e2, some e3, some e4 =>
        let firstKey := e1 ++ e2 ++ e3 ++ e4
        if cmacNew firstKey = false then .fail c1 .cmacKeySize
        else
          let intermediarKey := K.cmac firstKey secret
          if cmacNew intermediarKey = false then .fail c1 .cmacKeySize
          else
            let c2 := { c1 with confKey := some (K.cmac intermediarKey (twitData 0x01 c1)) }
            if cmacNew intermediarKey = false then .fail c2 .cmacKeySize
            else
              let c3 := { c2 with ltk := some (K.cmac intermediarKey (twitData 0x02 c2)) }
              if cmacNew (bytesOf c3.confKey) = false then .fail c3 .cmacKeySize
              else
                let c4 := { c3 with pdmConf := some (K.cmac (bytesOf c3.confKey)
                  (kc2u ++ bytesOf c3.pdmNonce ++ bytesOf c3.podNonce)) }
                if cmacNew (bytesOf c4.confKey) = false then .fail c4 .cmacKeySize
                else
                  .done { c4 with podConf := some (K.cmac (bytesOf c4.confKey)
                    (kc2v ++ bytesOf c4.podNonce ++ bytesOf c4.pdmNonce)) } ()
      | _, _, _, _ => .panic

/-! ## Message handlers -/

/-- The method `ParseSP1SP2`. -/
def ParseSP1SP2 (c : Pair) (msg : Message) : Exec Unit :=
  match parseStringByte [sp1, sp2] msg.payload with
  | .panic => .panic
  | .error e => .fail c e
  | .ok _ => .done { c with podID := msg.destination, pdmID := msg.source } ()

/-- The method `ParseSPS0`. -/
def ParseSPS0 (c : Pair) (msg : Message) (rnd : Entropy) : Exec Unit :=
  match parseStringByte [sps0] msg.payload with
  | .panic => .panic
  | .error e => .fail c e
  | .ok _ =>
    -- copy(c.pdmNonce, []byte(sps0))
    computeMyData { c with pdmNonce := c.pdmNonce.map (fun d => goCopy d sps0) } rnd

/-- The method `ParseSPS1`. -/
def ParseSPS1 (c : Pair) (msg : Message) : Exec Unit :=
  match parseStringByte [sps1] msg.payload with
  | .panic => .panic
  | .error e => .fail c e
  | .ok sp =>
    -- pdmPublic := sp[sps1][:64]
    match (fieldAt sp sps1).sliceTo 64 with
    | none => .panic
    | some pdmPublic =>
      -- pdmNonce := sp[sps1][64:]
      match (fieldAt sp sps1).sliceFrom 64 with
      | none => .panic
      | some pdmNonce =>
        .done { c with
          pdmPublic := some (goCopy (List.replicate 64 0) pdmPublic.vis)
          pdmNonce := some (goCopy (List.replicate 16 0) pdmNonce.vis) } ()

/-- The method `GenerateSPS0`. -/
def GenerateSPS0 (c : Pair) : Exec Message :=
  match buildStringByte [sps0] (FieldMap.set [] sps0 [0x00, 0x00, 0x09, 0x91, 0x29]) with
  | .ok payload => .done c (NewMessage .pairing c.podID c.pdmID payload)
  | .error e => .fail c e
  | .panic => .panic

/-- The method `GenerateSPS1`. -/
def GenerateSPS1 (K : Crypto) (c : Pair) : Exec Message :=
  match buildStringByte [sps1]
      (FieldMap.set [] sps1 (bytesOf c.podPublic ++ bytesOf c.podNonce)) with
  | .ok payload =>
    match computePairData K c with
    | .done c1 _ => .done c1 (NewMessage .pairing c.podID c.pdmID payload)
    | .fail c1 e => .fail c1 e
    | .panic => .panic
  | .error e => .fail c e
  | .panic => .panic

/-- The method `ParseSPS2`. -/
def ParseSPS2 (c : Pair) (msg : Message) : Exec Unit :=
  match parseStringByte [sps2] msg.payload with
  | .panic => .panic
  | .error e => .fail c e
  | .ok sp =>
    -- !bytes.Equal(c.pdmConf, sp[sps2])
    if bytesOf c.pdmConf ≠ (fieldAt sp sps2).vis then .fail c .invalidConf
    else .done c ()

/-- The method `GenerateSPS2`. -/
def GenerateSPS2 (c : Pair) : Exec Message :=
  match buildStringByte [sps2] (FieldMap.set [] sps2 (bytesOf c.podConf)) with
  | .ok payload => .done c (NewMessage .pairing c.podID c.pdmID payload)
  | .error e => .fail c e
  | .panic => .panic

/-- The method `ParseSP0GP0`. -/
def ParseSP0GP0 (c : Pair) (msg : Message) : Exec Unit :=
  if msg.payload.vis ≠ sp0gp0 then .fail c .expectedSP0GP0 else .done c ()

/-- The method `GenerateP0`. -/
def GenerateP0 (c : Pair) : Exec Message :=
  match buildStringByte [p0] (FieldMap.set [] p0 [0xa5]) with
  | .ok payload => .done c (NewMessage .pairing c.podID c.pdmID payload)
  | .error e => .fail c e
  | .panic => .panic

/-- The method `LTK`: the key (a slice, possibly nil) and a nil error, or an
error and no key. -/
def LTK (c : Pair) : Outcome (Option Bytes) :=
  if c.sharedSecret ≠ none then .ok c.ltk else .error .missingData

/-! ## Sequences of calls -/

/-- A call of one of the handlers of a session, with its arguments. -/
inductive Op where
  | parseSP1SP2 (msg : Message)
  | parseSPS0 (msg : Message) (rnd : Entropy)
  | parseSPS1 (msg : Message)
  | generateSPS0
  | generateSPS1
  | parseSPS2 (msg : Message)
  | generateSPS2
  | parseSP0GP0 (msg : Message)
  | generateP0

/-- The session after a call that returned, with or without an error. -/
def Exec.after {α : Type} : Exec α → Option Pair
  | .done c _ => some c
  | .fail c _ => some c
  | .panic => none

/-- The session after the call `op`; `none` when the call panics. -/
def step (K : Crypto) (c : Pair) : Op → Option Pair
  | .parseSP1SP2 msg => (ParseSP1SP2 c msg).after
  | .parseSPS0 msg rnd => (ParseSPS0 c msg rnd).after
  | .parseSPS1 msg => (ParseSPS1 c msg).after
  | .generateSPS0 => (GenerateSPS0 c).after
  | .generateSPS1 => (GenerateSPS1 K c).after
  | .parseSPS2 msg => (ParseSPS2 c msg).after
  | .generateSPS2 => (GenerateSPS2 c).after
  | .parseSP0GP0 msg => (ParseSP0GP0 c msg).after
  | .generateP0 => (GenerateP0 c).after

/-- The session after the calls `ops`, made one after the other from state `c`;
`none` when one of them panics. -/
def run (K : Crypto) (c : Pair) : List Op → Option Pair
  | [] => some c
  | op :: ops =>
    match step K c op with
    | none => none
    | some c1 => run K c1 ops

/-! ## A sample session

Concrete data on which the definitions above are run: a stand-in for the
external packages and the messages of one handshake. -/

/-- The first 16 bytes of `b`, filled up with zeros. -/
def pad16 (b : Bytes) : Bytes := (b ++ List.replicate 16 0).take 16

/-- A stand-in for the external packages: it accepts the keys of the right
length, and its "CMAC" adds key and message bytewise. -/
def sampleCrypto : Crypto where
  validPrivate b := decide (b.length = 32)
  validPublic b := decide (b.length = 65)
  ecdh priv _ := some priv.reverse
  cmac key data := List.zipWith (fun x y => x + y) (pad16 key) (pad16 data)
  validPublic_length := by
    intro b h
    exact of_decide_eq_true h
  cmac_length := by
    intro key data
    simp [pad16, List.length_zipWith, List.length_take]

/-- A draw from `crypto/rand`. -/
def sampleEntropy : Entropy where
  nonce := List.replicate 16 0x33
  privateKey := List.replicate 32 0x07
  publicKey := 0x04 :: List.replicate 64 0x11
  nonce_length := by decide
  privateKey_length := by decide
  publicKey_length := by decide

/-- A pairing message from the PDM with the given payload, length equal to
capacity. -/
def sampleMessage (payload : Bytes) : Message :=
  ⟨.pairing, some [0x0a], some [0x0b], ⟨payload, []⟩⟩

/-- The SPS0 message of the PDM, with an empty value. -/
def sampleSPS0 : Message := sampleMessage (sps0 ++ [0x00, 0x00])

/-- The SPS1 message of the PDM: a public key of 64 bytes `0x22` and a nonce of
16 bytes `0x55`. -/
def sampleSPS1 : Message :=
  sampleMessage (sps1 ++ [0x00, 0x50] ++ List.replicate 64 0x22 ++ List.replicate 16 0x55)

/-- The SP1/SP2 message of the PDM, with two empty values. -/
def sampleSP1SP2 : Message := sampleMessage (sp1 ++ [0x00, 0x00] ++ sp2 ++ [0x00, 0x00])

/-- The session after `ParseSP1SP2`: the two identifiers only. -/
def sampleIdent : Pair :=
  { Pair.fresh with podID := some [0x0b], pdmID := some [0x0a] }

/-- The session after `ParseSP1SP2` and `ParseSPS0`: identifiers and local key
material. -/
def sampleLocal : Pair :=
  { sampleIdent with
    podNonce := some (List.replicate 16 0x33)
    podPrivate := some (List.replicate 32 0x07)
    podPublic := some (List.replicate 64 0x11) }

/-- The session after `ParseSP1SP2`, `ParseSPS0` and `ParseSPS1`. -/
def samplePeer : Pair :=
  { sampleLocal with
    pdmPublic := some (List.replicate 64 0x22)
    pdmNonce := some (List.replicate 16 0x55) }

/-- The session after `ParseSP1SP2`, `ParseSPS0`, `ParseSPS1` and the
derivation run by `GenerateSPS1`, with the stand-in for the external packages. -/
def sampleDerived : Pair :=
  { samplePeer with
    sharedSecret := some (List.replicate 32 0x07)
    confKey := some [25, 108, 111, 97, 157, 92, 92, 92, 109, 109, 109, 109, 143, 143, 143, 143]
    ltk := some [26, 108, 111, 97, 157, 92, 92, 92, 109, 109, 109, 109, 143, 143, 143, 143]
    pdmConf := some [100, 175, 206, 147, 252, 177, 177, 177, 194, 194, 194, 194, 228, 228,
      228, 228]
    podConf := some [100, 175, 206, 147, 252, 178, 143, 143, 160, 160, 160, 160, 194, 194,
      194, 194] }

/-! ## A handshake with the values of the real primitives

The pod's private key is 32 bytes `0x07` and the PDM's is 32 bytes `0x09`; the
public keys, the shared secret and the five CMACs below are the values that
P-256 and AES-CMAC give on them. -/

/-- The private key of the pod: 32 bytes `0x07`. -/
def realPodPrivate : Bytes := List.replicate 32 0x07

/-- The public key of the pod, X then Y: the P-256 point of `realPodPrivate`. -/
def realPodPublic : Bytes :=
  [0x1e, 0x18, 0x53, 0x2f, 0xd4, 0x75, 0x4c, 0x02, 0xf3, 0x04, 0x1d, 0x9c,
    0x75, 0xce, 0xb3, 0x3b, 0x83, 0xff, 0xd8, 0x1a, 0xc7, 0xce, 0x4f, 0xe8,
    0x82, 0xcc, 0xb1, 0xc9, 0x8b, 0xc5, 0x89, 0x6e, 0xa4, 0x6c, 0x31, 0x1c,
    0x4e, 0x2f, 0xf4, 0x0d, 0xd9, 0x6a, 0x36, 0x53, 0xe6, 0xe4, 0x54, 0x45,
    0xd3, 0x2d, 0xfe, 0x48, 0x6e, 0xce, 0xd7, 0x5c, 0x7a, 0x90, 0xc6, 0xa1,
    0x88, 0x81, 0xc0, 0xa3]

/-- The public key of the PDM, X then Y: the P-256 point of the private key of
32 bytes `0x09`. -/
def realPdmPublic : Bytes :=
  [0x71, 0x35, 0xfa, 0x4f, 0xd9, 0x3a, 0x09, 0xdc, 0xe9, 0x8b, 0xbf, 0x68,
    0x1b, 0x4b, 0xfc, 0xf5, 0x0e, 0x7c, 0x0d, 0x63, 0x54, 0xe6, 0x2a, 0xfb,
    0x0b, 0xff, 0x2a, 0x34, 0x29, 0x61, 0x78, 0x65, 0xed, 0x4c, 0x1f, 0x02,
    0xdd, 0xb9, 0x02, 0x3e, 0xe5, 0x6a, 0x55, 0x7e, 0x51, 0x5d, 0x6a, 0x9d,
    0xc6, 0x6c, 0x11, 0xf2, 0x20, 0x96, 0x0d, 0xe5, 0x94, 0x33, 0x4d, 0xf5,
    0x88, 0x77, 0x67, 0x24]

/-- The ECDH secret of `realPodPrivate` and `realPdmPublic`. -/
def realSecret : Bytes :=
  [0x69, 0xd2, 0x20, 0xc6, 0xab, 0x7e, 0x61, 0x94, 0x92, 0x7a, 0x8c, 0xa5,
    0xda, 0x11, 0x2e, 0x57, 0x3c, 0x08, 0xdf, 0xcc, 0xb7, 0x43, 0xd3, 0xf7,
    0xf7, 0x69, 0x00, 0x48, 0x45, 0x11, 0xfe, 0xb5]

/-- The nonce of the pod: 16 bytes `0x33`. -/
def realPodNonce : Bytes := List.replicate 16 0x33

/-- The nonce of the PDM: 16 bytes `0x55`. -/
def realPdmNonce : Bytes := List.replicate 16 0x55

/-- The last 4 bytes of `realPodPublic`, `realPdmPublic`, `realPodNonce` and
`realPdmNonce`. -/
def realFirstKey : Bytes :=
  [0x88, 0x81, 0xc0, 0xa3, 0x88, 0x77, 0x67, 0x24, 0x33, 0x33, 0x33, 0x33,
    0x55, 0x55, 0x55, 0x55]

/-- AES-CMAC of `realSecret` under `realFirstKey`. -/
def realKInt : Bytes :=
  [0xc8, 0x3a, 0xc7, 0x4b, 0xa8, 0xcf, 0xa6, 0xda, 0x41, 0xb5, 0x70, 0x65,
    0x55, 0x41, 0x28, 0x52]

/-- AES-CMAC of 0x01 || "TWIt" || podNonce || pdmNonce || 0x00 0x01 under
`realKInt`. -/
def realConfKey : Bytes :=
  [0xe3, 0x5a, 0xa8, 0xfa, 0x18, 0x1e, 0x18, 0x7c, 0x14, 0xaf, 0xe0, 0x84,
    0x51, 0x8f, 0x61, 0x2b]

/-- AES-CMAC of 0x02 || "TWIt" || podNonce || pdmNonce || 0x00 0x01 under
`realKInt`. -/
def realLtk : Bytes :=
  [0xa4, 0xa1, 0xf4, 0x9d, 0x37, 0xac, 0x0e, 0xa0, 0x05, 0x40, 0xe3, 0xd7,
    0x89, 0x06, 0x42, 0xf9]

/-- AES-CMAC of "KC_2_U" || pdmNonce || podNonce under `realConfKey`. -/
def realPdmConf : Bytes :=
  [0xee, 0xeb, 0xfc, 0xcc, 0xeb, 0x30, 0x81, 0x5d, 0x78, 0x09, 0x95, 0xc5,
    0x34, 0x27, 0x8f, 0x1f]

/-- AES-CMAC of "KC_2_V" || podNonce || pdmNonce under `realConfKey`. -/
def realPodConf : Bytes :=
  [0xe6, 0x31, 0xc2, 0x5e, 0xc6, 0xde, 0xb0, 0xdc, 0x63, 0xde, 0xa6, 0xc9,
    0xdb, 0xcb, 0x93, 0xe3]

/-- The external packages on the inputs of this handshake, as a table: the
keys, the secret and the CMACs are those of P-256 and AES-CMAC.  Every other
key is refused, and a CMAC outside the table is a block of zeros; the table is
consulted on the inputs of this handshake only. -/
def tableCrypto : Crypto where
  validPrivate b := decide (b = realPodPrivate)
  validPublic b := decide (b = 0x04 :: realPdmPublic)
  ecdh priv pub :=
    if priv = realPodPrivate ∧ pub = 0x04 :: realPdmPublic then some realSecret else none
  cmac key data :=
    if key = realFirstKey ∧ data = realSecret then realKInt
    else if key = realKInt
        ∧ data = [0x01] ++ twit ++ realPodNonce ++ realPdmNonce ++ [0x00, 0x01] then realConfKey
    else if key = realKInt
        ∧ data = [0x02] ++ twit ++ realPodNonce ++ realPdmNonce ++ [0x00, 0x01] then realLtk
    else if key = realConfKey ∧ data = kc2u ++ realPdmNonce ++ realPodNonce then realPdmConf
    else if key = realConfKey ∧ data = kc2v ++ realPodNonce ++ realPdmNonce then realPodConf
    else List.replicate 16 0
  validPublic_length := by
    intro b h
    rw [of_decide_eq_true h]
    rfl
  cmac_length := by
    intro key data
    dsimp only
    split
    · rfl
    split
    · rfl
    split
    · rfl
    split
    · rfl
    split
    · rfl
    · rfl

/-- The draw from `crypto/rand` that gives the pod the nonce and the key pair
above. -/
def realEntropy : Entropy where
  nonce := realPodNonce
  privateKey := realPodPrivate
  publicKey := 0x04 :: realPodPublic
  nonce_length := by decide
  privateKey_length := by decide
  publicKey_length := by decide

/-- The SPS1 message of the PDM: its public key and its nonce, 80 bytes. -/
def realSPS1 : Message :=
  sampleMessage (sps1 ++ [0x00, 0x50] ++ realPdmPublic ++ realPdmNonce)

/-- A message that declares an "SPS1=" value of length zero and goes on with
the 64 bytes of the PDM's public key. -/
def shortSPS1 : Message :=
  sampleMessage (sps1 ++ [0x00, 0x00] ++ realPdmPublic)

/-- The session after `ParseSP1SP2`, `ParseSPS0` (with `realEntropy`) and
`ParseSPS1` (with `realSPS1`). -/
def realPeer : Pair :=
  { sampleIdent with
    podNonce := some realPodNonce
    podPrivate := some realPodPrivate
    podPublic := some realPodPublic
    pdmPublic := some realPdmPublic
    pdmNonce := some realPdmNonce }

/-- The session `realPeer` after the derivation run by `GenerateSPS1`. -/
def realDerived : Pair :=
  { realPeer with
    sharedSecret := some realSecret
    confKey := some realConfKey
    ltk := some realLtk
    pdmConf := some realPdmConf
    podConf := some realPodConf }

/-! ## Calls that panic

A panic ends the call, not the session: what the call has written to the
session before the panic stays written, and a caller that recovers goes on with
that session. -/

/-- The session that `ParseSPS1` leaves when it panics.  Inside
`parseStringByte` and at `sp[sps1][:64]` nothing has been written yet; at
`sp[sps1][64:]` the field `pdmPublic` has been. -/
def ParseSPS1_panicState (c : Pair) (msg : Message) : Pair :=
  match parseStringByte [sps1] msg.payload with
  | .ok sp =>
    match (fieldAt sp sps1).sliceTo 64 with
    | some pdmPublic => { c with pdmPublic := some (goCopy (List.replicate 64 0) pdmPublic.vis) }
    | none => c
  | _ => c

/-- The session that `computePairData` leaves when it panics: its panics are at
the slice expressions that build `firstKey`, which are reached once both keys
are accepted and `ECDH` has returned, after `sharedSecret` has been assigned. -/
def computePairData_panicState (K : Crypto) (c : Pair) : Pair :=
  if K.validPrivate (bytesOf c.podPrivate) = false then c
  else if K.validPublic (0x04 :: bytesOf c.pdmPublic) = false then c
  else
    match K.ecdh (bytesOf c.podPrivate) (0x04 :: bytesOf c.pdmPublic) with
    | some secret => { c with sharedSecret := some secret }
    | none => c

/-- The session after the call `op`, also when the call panics and the caller
recovers.  The handlers other than `ParseSPS1` and `GenerateSPS1` panic inside
`parseStringByte` only, before they write. -/
def stepRecovered (K : Crypto) (c : Pair) (op : Op) : Pair :=
  match step K c op with
  | some c1 => c1
  | none =>
    match op with
    | .parseSPS1 msg => ParseSPS1_panicState c msg
    | .generateSPS1 => computePairData_panicState K c
    | _ => c

/-- The session after the calls `ops`, made one after the other from state `c`
by a caller that recovers from every panic. -/
def runRecovered (K : Crypto) (c : Pair) : List Op → Pair
  | [] => c
  | op :: ops => runRecovered K (stepRecovered K c op) ops

/-! ## Definitions used to state the properties -/

/-- The map that `parseStringByte` returned, passed on to `buildStringByte`:
of each slice `buildStringByte` reads the length and the elements below it. -/
def contents (m : FieldMap Slice) : FieldMap Bytes :=
  match m with
  | [] => []
  | (k, v) :: rest => (k, v.vis) :: contents rest

/-- Following the words of the spec: a length as two bytes, big-endian, the
high byte first. -/
def bigEndian16 (n : Nat) : Bytes :=
  [UInt8.ofNat (n / 256), UInt8.ofNat (n % 256)]

/-- Following the words of the spec: the encoding of a list of tags under a
mapping is the concatenation, in list order, of each tag's bytes, the length of
its value as two bytes big-endian and the bytes of the value; a tag that the
mapping lacks has length 0 and no value bytes. -/
def layoutSpec (names : List GoString) (values : FieldMap Bytes) : Bytes :=
  match names with
  | [] => []
  | name :: rest =>
    (match values.get name with
      | some v => name ++ bigEndian16 v.length ++ v
      | none => name ++ [0x00, 0x00]) ++ layoutSpec rest values

/-- The contents of the buffer `pdmConfData` of `computePairData`, from the two
nonces in the order they are written. -/
def pdmConfData (pdmNonce podNonce : Bytes) : Bytes :=
  kc2u ++ pdmNonce ++ podNonce

/-- The contents of the buffer `podConfData` of `computePairData`, from the two
nonces in the order they are written. -/
def podConfData (podNonce pdmNonce : Bytes) : Bytes :=
  kc2v ++ podNonce ++ pdmNonce

/-- A field as it stands in a payload: the tag, the two length bytes and the
value. -/
structure Field where
  name : GoString
  b0 : UInt8
  b1 : UInt8
  value : Bytes
deriving DecidableEq, Repr

/-- The bytes of a field in a payload. -/
def Field.wire (f : Field) : Bytes :=
  f.name ++ (f.b0 :: f.b1 :: f.value)

/-- A field is well formed when its two length bytes, read big-endian, give the
length of its value. -/
def Field.wellFormed (f : Field) : Prop :=
  f.b0.toNat * 256 + f.b1.toNat = f.value.length

instance (f : Field) : Decidable f.wellFormed :=
  inferInstanceAs (Decidable (f.b0.toNat * 256 + f.b1.toNat = f.value.length))

/-- The bytes of a sequence of fields, one after the other. -/
def wireOf (fs : List Field) : Bytes :=
  match fs with
  | [] => []
  | f :: rest => f.wire ++ wireOf rest

set_option maxRecDepth 100000

/-! ## Lemmas on the codec -/

theorem FieldMap.get_remove {V : Type} (m : FieldMap V) (k k1 : GoString) (h : k ≠ k1) :
    (m.remove k).get k1 = m.get k1 := by
  induction m with
  | nil => rfl
  | cons p rest ih =>
    obtain ⟨k2, v2⟩ := p
    by_cases h2 : k2 = k
    · subst h2
      simp only [FieldMap.remove, FieldMap.get, if_true, if_neg h, ih]
    · by_cases h3 : k2 = k1
      · subst h3
        simp only [FieldMap.remove, FieldMap.get, if_neg h2, if_true]
      · simp only [FieldMap.remove, FieldMap.get, if_neg h2, if_neg h3, ih]

theorem FieldMap.get_set {V : Type} (m : FieldMap V) (k k1 : GoString) (v : V) :
    (m.set k v).get k1 = if k = k1 then some v else m.get k1 := by
  by_cases h : k = k1
  · simp [FieldMap.set, FieldMap.get, h]
  · simp [FieldMap.set, FieldMap.get, h, FieldMap.get_remove m k k1 h]

theorem lengthBytes_decode (n : Nat) (h : n ≤ 65535) :
    (UInt8.ofNat (n >>> 8 &&& 0xff)).toNat <<< 8 ||| (UInt8.ofNat (n &&& 0xff)).toNat = n := by
  have e1 : ∀ k, (UInt8.ofNat k).toNat = k % 256 := fun _ => rfl
  have e2 : ∀ x : Nat, x &&& 0xff = x % 256 := fun x => Nat.and_pow_two_sub_one_eq_mod x 8
  rw [e1, e1, e2, e2, Nat.shiftRight_eq_div_pow, Nat.shiftLeft_eq]
  have h3 : n % 256 % 256 < 2 ^ 8 := by omega
  have := Nat.mul_add_lt_is_or h3 (n / 2 ^ 8 % 256 % 256)
  rw [Nat.mul_comm, ← this]
  omega

theorem Slice.sliceTo_append (name rest spare : Bytes) :
    Slice.sliceTo ⟨name ++ rest, spare⟩ name.length
      = some ⟨name, rest ++ spare⟩ := by
  have h : name.length ≤ Slice.cap ⟨name ++ rest, spare⟩ := by
    simp only [Slice.cap, List.length_append]; omega
  simp only [Slice.sliceTo, if_pos h, Slice.arr, List.append_assoc, List.take_left,
    List.drop_left]

theorem Slice.sliceFrom_append (name rest spare : Bytes) :
    Slice.sliceFrom ⟨name ++ rest, spare⟩ name.length = some ⟨rest, spare⟩ := by
  have h : name.length ≤ Slice.len ⟨name ++ rest, spare⟩ := by
    simp only [Slice.len, List.length_append]; omega
  simp only [Slice.sliceFrom, if_pos h, List.drop_left]

theorem Slice.slice_value (b0 b1 : UInt8) (v tail spare : Bytes) :
    Slice.slice ⟨b0 :: b1 :: (v ++ tail), spare⟩ 2 (2 + v.length)
      = some ⟨v, tail ++ spare⟩ := by
  have h : 2 ≤ 2 + v.length ∧ 2 + v.length ≤ Slice.cap ⟨b0 :: b1 :: (v ++ tail), spare⟩ := by
    simp only [Slice.cap, List.length_cons, List.length_append]; omega
  have e : 2 + v.length = (b0 :: b1 :: v).length := by simp only [List.length_cons]; omega
  have a : Slice.arr ⟨b0 :: b1 :: (v ++ tail), spare⟩ = (b0 :: b1 :: v) ++ (tail ++ spare) := by
    simp only [Slice.arr, List.cons_append, List.append_assoc]
  simp only [Slice.slice, if_pos h, a]
  rw [e, List.take_left, List.drop_left]
  rfl

theorem Slice.sliceFrom_value (b0 b1 : UInt8) (v tail spare : Bytes) :
    Slice.sliceFrom ⟨b0 :: b1 :: (v ++ tail), spare⟩ (2 + v.length) = some ⟨tail, spare⟩ := by
  have e : 2 + v.length = (b0 :: b1 :: v).length := by simp only [List.length_cons]; omega
  have a : b0 :: b1 :: (v ++ tail) = (b0 :: b1 :: v) ++ tail := rfl
  rw [a, e]
  exact Slice.sliceFrom_append _ _ _

/-- One turn of the loop of `parseStringByte` on a payload that starts with a
whole field: the field's value is stored and the loop goes on after it. -/
theorem parseLoop_field (name : GoString) (rest : List GoString) (b0 b1 : UInt8)
    (v tail spare : Bytes) (ret : FieldMap Slice)
    (hlen : b0.toNat <<< 8 ||| b1.toNat = v.length) :
    parseLoop (name :: rest) ⟨name ++ (b0 :: b1 :: (v ++ tail)), spare⟩ ret
      = parseLoop rest ⟨tail, spare⟩ (ret.set name ⟨v, tail ++ spare⟩) := by
  rw [parseLoop]
  simp only [Slice.sliceTo_append, Slice.sliceFrom_append, ne_eq, not_true_eq_false, if_false,
    Slice.index, List.getElem?_cons_zero, List.getElem?_cons_succ, hlen, Slice.slice_value,
    Slice.sliceFrom_value]

theorem buildLoop_append (names : List GoString) (values : FieldMap Bytes) (buf : Bytes) :
    buildLoop names values buf = buf ++ buildLoop names values [] := by
  induction names generalizing buf with
  | nil => simp [buildLoop]
  | cons name rest ih =>
    rw [buildLoop, ih, buildLoop, ih (([] ++ name ++ _) ++ _)]
    simp only [List.nil_append, List.append_assoc]

/-- The length that `parseStringByte` reads from two bytes is their big-endian
value. -/
theorem shift_or_eq (b0 b1 : UInt8) :
    b0.toNat <<< 8 ||| b1.toNat = b0.toNat * 256 + b1.toNat := by
  have h : b1.toNat < 2 ^ 8 := b1.val.isLt
  rw [Nat.shiftLeft_eq, Nat.mul_comm, ← Nat.mul_add_lt_is_or h, Nat.mul_comm]

/-- Decoding what `buildStringByte` wrote, followed by any bytes: every listed
name is mapped to the bytes of its value, the other keys of the map are kept. -/
theorem parseLoop_buildLoop (values : FieldMap Bytes) (names : List GoString)
    (tail spare : Bytes) (ret : FieldMap Slice)
    (h : ∀ name ∈ names, (values.bytesAt name).length ≤ 65535) :
    ∃ m, parseLoop names ⟨buildLoop names values [] ++ tail, spare⟩ ret = .ok m ∧
      ∀ k, (m.get k).map Slice.vis
        = if k ∈ names then some (values.bytesAt k) else (ret.get k).map Slice.vis := by
  induction names generalizing ret with
  | nil => exact ⟨ret, rfl, fun k => by simp⟩
  | cons name rest ih =>
    have hn : (values.bytesAt name).length ≤ 65535 := h name (List.mem_cons_self _ _)
    have hr : ∀ n ∈ rest, (values.bytesAt n).length ≤ 65535 :=
      fun n hm => h n (List.mem_cons_of_mem _ hm)
    obtain ⟨m, hm, hget⟩ := ih
      (ret.set name ⟨values.bytesAt name, (buildLoop rest values [] ++ tail) ++ spare⟩) hr
    refine ⟨m, ?_, ?_⟩
    · rw [buildLoop, buildLoop_append]
      have e : ([] ++ name ++ lengthBytes (values.bytesAt name).length ++ values.bytesAt name
            ++ buildLoop rest values []) ++ tail
          = name ++ (UInt8.ofNat ((values.bytesAt name).length >>> 8 &&& 0xff)
            :: UInt8.ofNat ((values.bytesAt name).length &&& 0xff)
            :: (values.bytesAt name ++ (buildLoop rest values [] ++ tail))) := by
        simp [lengthBytes]
      rw [e, parseLoop_field _ _ _ _ _ _ _ _ (lengthBytes_decode _ hn)]
      exact hm
    · intro k
      rw [hget k, FieldMap.get_set]
      by_cases h1 : k ∈ rest
      · simp [h1]
      · by_cases h2 : name = k
        · subst h2
          simp [h1]
        · have h3 : ¬ k = name := fun e => h2 e.symm
          simp [h1, h2, h3]

/-! ## Properties of the codec -/

/-- C1: round trip of the codec.  For every list of tag names and every mapping
whose listed values have at most 65535 bytes, `buildStringByte` returns a payload
on which `parseStringByte` (whatever the spare capacity of the payload) returns a
map, and the map gives each listed tag the bytes of its original value. -/
theorem tlv_round_trip (names : List GoString) (values : FieldMap Bytes) (spare : Bytes)
    (h : ∀ name ∈ names, (values.bytesAt name).length ≤ 65535) :
    ∃ payload m, buildStringByte names values = .ok payload ∧
      parseStringByte names ⟨payload, spare⟩ = .ok m ∧
      ∀ name ∈ names, (m.get name).map Slice.vis = some (values.bytesAt name) := by
  obtain ⟨m, hm, hget⟩ := parseLoop_buildLoop values names [] spare [] h
  refine ⟨buildLoop names values [], m, rfl, ?_, ?_⟩
  · rw [List.append_nil] at hm
    exact hm
  · intro name hn
    rw [hget name, if_pos hn]

theorem tlv_round_trip_witness :
    (∀ name ∈ [sp1, sp2],
        (FieldMap.bytesAt [(sp1, [0x01, 0x02]), (sp2, [])] name).length ≤ 65535) ∧
      ∃ payload m, buildStringByte [sp1, sp2] [(sp1, [0x01, 0x02]), (sp2, [])] = .ok payload ∧
        parseStringByte [sp1, sp2] ⟨payload, [0xff]⟩ = .ok m ∧
        ∀ name ∈ [sp1, sp2], (m.get name).map Slice.vis
          = some (FieldMap.bytesAt [(sp1, [0x01, 0x02]), (sp2, [])] name) :=
  ⟨by decide, tlv_round_trip [sp1, sp2] [(sp1, [0x01, 0x02]), (sp2, [])] [0xff] (by decide)⟩

/-! ## The derivation chain -/

/-- What a successful run of `computePairData` has computed: the shared secret,
the four key ends and the five fields it has written. -/
theorem computePairData_done (K : Crypto) (c c1 : Pair)
    (h : computePairData K c = .done c1 ()) :
    ∃ secret e1 e2 e3 e4,
      K.ecdh (bytesOf c.podPrivate) (0x04 :: bytesOf c.pdmPublic) = some secret ∧
      lastBytes (bytesOf c.podPublic) 4 = some e1 ∧
      lastBytes (bytesOf c.pdmPublic) 4 = some e2 ∧
      lastBytes (bytesOf c.podNonce) 4 = some e3 ∧
      lastBytes (bytesOf c.pdmNonce) 4 = some e4 ∧
      c1 = { c with
        sharedSecret := some secret
        confKey := some (K.cmac (K.cmac (e1 ++ e2 ++ e3 ++ e4) secret) (twitData 0x01 c))
        ltk := some (K.cmac (K.cmac (e1 ++ e2 ++ e3 ++ e4) secret) (twitData 0x02 c))
        pdmConf := some (K.cmac
          (K.cmac (K.cmac (e1 ++ e2 ++ e3 ++ e4) secret) (twitData 0x01 c))
          (kc2u ++ bytesOf c.pdmNonce ++ bytesOf c.podNonce))
        podConf := some (K.cmac
          (K.cmac (K.cmac (e1 ++ e2 ++ e3 ++ e4) secret) (twitData 0x01 c))
          (kc2v ++ bytesOf c.podNonce ++ bytesOf c.pdmNonce)) } := by
  unfold computePairData at h
  split at h
  · exact Exec.noConfusion h
  split at h
  · exact Exec.noConfusion h
  split at h
  · exact Exec.noConfusion h
  rename_i secret hs
  dsimp only at h
  split at h
  · rename_i e1 e2 e3 e4 h1 h2 h3 h4
    split at h
    · exact Exec.noConfusion h
    split at h
    · exact Exec.noConfusion h
    split at h
    · exact Exec.noConfusion h
    injection h with hc
    exact ⟨secret, e1, e2, e3, e4, hs, h1, h2, h3, h4, hc.symm⟩
  · exact Exec.noConfusion h

theorem lastBytes_length (b e : Bytes) (n : Nat) (h : lastBytes b n = some e) :
    e.length = n := by
  unfold lastBytes at h
  split at h
  · injection h with h1
    rw [← h1, List.length_drop]
    omega
  · exact Option.noConfusion h

/-- C2: the long-term key.  Whenever `computePairData` returns no error, the
session's `ltk` is CMAC(k_int, 0x02 || "TWIt" || podNonce || pdmNonce || 0x00 0x01)
with k_int = CMAC(firstKey, sharedSecret), where sharedSecret is the result of
ECDH on podPrivate and 0x04 || pdmPublic (also stored in the session) and
firstKey, of 16 bytes, is made of the last 4 bytes of podPublic, pdmPublic,
podNonce and pdmNonce. -/
theorem ltk_formula (K : Crypto) (c c1 : Pair) (h : computePairData K c = .done c1 ()) :
    ∃ sharedSecret e1 e2 e3 e4 firstKey,
      K.ecdh (bytesOf c.podPrivate) (0x04 :: bytesOf c.pdmPublic) = some sharedSecret ∧
      c1.sharedSecret = some sharedSecret ∧
      lastBytes (bytesOf c.podPublic) 4 = some e1 ∧
      lastBytes (bytesOf c.pdmPublic) 4 = some e2 ∧
      lastBytes (bytesOf c.podNonce) 4 = some e3 ∧
      lastBytes (bytesOf c.pdmNonce) 4 = some e4 ∧
      firstKey = e1 ++ e2 ++ e3 ++ e4 ∧
      firstKey.length = 16 ∧
      c1.ltk = some (K.cmac (K.cmac firstKey sharedSecret)
        ([0x02] ++ twit ++ bytesOf c1.podNonce ++ bytesOf c1.pdmNonce ++ [0x00, 0x01])) := by
  obtain ⟨secret, e1, e2, e3, e4, hs, h1, h2, h3, h4, hc⟩ := computePairData_done K c c1 h
  refine ⟨secret, e1, e2, e3, e4, e1 ++ e2 ++ e3 ++ e4, hs, ?_, h1, h2, h3, h4, rfl, ?_, ?_⟩
  · rw [hc]
  · simp only [List.length_append, lastBytes_length _ _ _ h1, lastBytes_length _ _ _ h2,
      lastBytes_length _ _ _ h3, lastBytes_length _ _ _ h4]
  · rw [hc]
    rfl

theorem ltk_formula_witness :
    computePairData sampleCrypto samplePeer = .done sampleDerived () ∧
    ∃ sharedSecret e1 e2 e3 e4 firstKey,
      sampleCrypto.ecdh (bytesOf samplePeer.podPrivate) (0x04 :: bytesOf samplePeer.pdmPublic)
        = some sharedSecret ∧
      sampleDerived.sharedSecret = some sharedSecret ∧
      lastBytes (bytesOf samplePeer.podPublic) 4 = some e1 ∧
      lastBytes (bytesOf samplePeer.pdmPublic) 4 = some e2 ∧
      lastBytes (bytesOf samplePeer.podNonce) 4 = some e3 ∧
      lastBytes (bytesOf samplePeer.pdmNonce) 4 = some e4 ∧
      firstKey = e1 ++ e2 ++ e3 ++ e4 ∧
      firstKey.length = 16 ∧
      sampleDerived.ltk = some (sampleCrypto.cmac (sampleCrypto.cmac firstKey sharedSecret)
        ([0x02] ++ twit ++ bytesOf sampleDerived.podNonce ++ bytesOf sampleDerived.pdmNonce
          ++ [0x00, 0x01])) :=
  ⟨by rfl, ltk_formula sampleCrypto samplePeer sampleDerived (by rfl)⟩

/-- C3: the expected peer confirmation value.  Whenever `computePairData`
returns no error, the session's `pdmConf` is CMAC(confKey, "KC_2_U" || pdmNonce
|| podNonce), where confKey (also stored in the session) is CMAC(k_int, 0x01 ||
"TWIt" || podNonce || pdmNonce || 0x00 0x01) and k_int = CMAC(firstKey,
sharedSecret) is the key under which the session's `ltk` is the CMAC of 0x02 ||
"TWIt" || podNonce || pdmNonce || 0x00 0x01. -/
theorem pdmConf_formula (K : Crypto) (c c1 : Pair) (h : computePairData K c = .done c1 ()) :
    ∃ sharedSecret e1 e2 e3 e4 kInt confKey,
      K.ecdh (bytesOf c.podPrivate) (0x04 :: bytesOf c.pdmPublic) = some sharedSecret ∧
      lastBytes (bytesOf c.podPublic) 4 = some e1 ∧
      lastBytes (bytesOf c.pdmPublic) 4 = some e2 ∧
      lastBytes (bytesOf c.podNonce) 4 = some e3 ∧
      lastBytes (bytesOf c.pdmNonce) 4 = some e4 ∧
      kInt = K.cmac (e1 ++ e2 ++ e3 ++ e4) sharedSecret ∧
      c1.ltk = some (K.cmac kInt
        ([0x02] ++ twit ++ bytesOf c1.podNonce ++ bytesOf c1.pdmNonce ++ [0x00, 0x01])) ∧
      confKey = K.cmac kInt
        ([0x01] ++ twit ++ bytesOf c1.podNonce ++ bytesOf c1.pdmNonce ++ [0x00, 0x01]) ∧
      c1.confKey = some confKey ∧
      c1.pdmConf = some (K.cmac confKey (kc2u ++ bytesOf c1.pdmNonce ++ bytesOf c1.podNonce)) := by
  obtain ⟨secret, e1, e2, e3, e4, hs, h1, h2, h3, h4, hc⟩ := computePairData_done K c c1 h
  refine ⟨secret, e1, e2, e3, e4, _, _, hs, h1, h2, h3, h4, rfl, ?_, rfl, ?_, ?_⟩
  · rw [hc]
    rfl
  · rw [hc]
    rfl
  · rw [hc]
    rfl

theorem pdmConf_formula_witness :
    computePairData sampleCrypto samplePeer = .done sampleDerived () ∧
    ∃ sharedSecret e1 e2 e3 e4 kInt confKey,
      sampleCrypto.ecdh (bytesOf samplePeer.podPrivate) (0x04 :: bytesOf samplePeer.pdmPublic)
        = some sharedSecret ∧
      lastBytes (bytesOf samplePeer.podPublic) 4 = some e1 ∧
      lastBytes (bytesOf samplePeer.pdmPublic) 4 = some e2 ∧
      lastBytes (bytesOf samplePeer.podNonce) 4 = some e3 ∧
      lastBytes (bytesOf samplePeer.pdmNonce) 4 = some e4 ∧
      kInt = sampleCrypto.cmac (e1 ++ e2 ++ e3 ++ e4) sharedSecret ∧
      sampleDerived.ltk = some (sampleCrypto.cmac kInt
        ([0x02] ++ twit ++ bytesOf sampleDerived.podNonce ++ bytesOf sampleDerived.pdmNonce
          ++ [0x00, 0x01])) ∧
      confKey = sampleCrypto.cmac kInt
        ([0x01] ++ twit ++ bytesOf sampleDerived.podNonce ++ bytesOf sampleDerived.pdmNonce
          ++ [0x00, 0x01]) ∧
      sampleDerived.confKey = some confKey ∧
      sampleDerived.pdmConf = some (sampleCrypto.cmac confKey
        (kc2u ++ bytesOf sampleDerived.pdmNonce ++ bytesOf sampleDerived.podNonce)) :=
  ⟨by rfl, pdmConf_formula sampleCrypto samplePeer sampleDerived (by rfl)⟩

/-! ## The confirmation check -/

/-- What `parseStringByte` returns for a single expected name on a payload that
starts with a whole field of that name. -/
theorem parseStringByte_single (name : GoString) (b0 b1 : UInt8) (value tail spare : Bytes)
    (hlen : b0.toNat * 256 + b1.toNat = value.length) :
    parseStringByte [name] ⟨name ++ (b0 :: b1 :: (value ++ tail)), spare⟩
      = .ok [(name, ⟨value, tail ++ spare⟩)] := by
  unfold parseStringByte
  rw [parseLoop_field name [] b0 b1 value tail spare [] ((shift_or_eq b0 b1).trans hlen)]
  rfl

theorem fieldAt_single (name : GoString) (v : Slice) : fieldAt [(name, v)] name = v := by
  simp [fieldAt, FieldMap.get]

/-- `ParseSPS2` on a payload that starts with a whole "SPS2=" field: the field's
value is compared with `pdmConf`, and the session is not written. -/
theorem ParseSPS2_field (c : Pair) (msg : Message) (b0 b1 : UInt8) (value tail spare : Bytes)
    (hp : msg.payload = ⟨sps2 ++ (b0 :: b1 :: (value ++ tail)), spare⟩)
    (hlen : b0.toNat * 256 + b1.toNat = value.length) :
    ParseSPS2 c msg
      = if bytesOf c.pdmConf ≠ value then .fail c .invalidConf else .done c () := by
  unfold ParseSPS2
  rw [hp, parseStringByte_single sps2 b0 b1 value tail spare hlen]
  simp only [fieldAt_single]

/-- C4: the confirmation check.  For every session and every message whose
payload is a well-formed "SPS2=" field (the tag, the length of the value as two
bytes big-endian, the value; whatever follows), `ParseSPS2` returns no error if
and only if the value equals, byte for byte, the session's `pdmConf`, and
otherwise it returns an error; either way the session it leaves is the session it
was given, field by field. -/
theorem ParseSPS2_confirmation (c : Pair) (msg : Message) (b0 b1 : UInt8)
    (value tail spare : Bytes)
    (hp : msg.payload = ⟨sps2 ++ (b0 :: b1 :: (value ++ tail)), spare⟩)
    (hlen : b0.toNat * 256 + b1.toNat = value.length) :
    (ParseSPS2 c msg = .done c () ↔ value = bytesOf c.pdmConf) ∧
    (value ≠ bytesOf c.pdmConf → ParseSPS2 c msg = .fail c .invalidConf) ∧
    (ParseSPS2 c msg = .done c () ∨ ∃ e, ParseSPS2 c msg = .fail c e) := by
  rw [ParseSPS2_field c msg b0 b1 value tail spare hp hlen]
  by_cases h : bytesOf c.pdmConf = value
  · simp [h]
  · have h1 : ¬ value = bytesOf c.pdmConf := fun e => h e.symm
    simp [h, h1]

theorem ParseSPS2_confirmation_witness :
    (sampleMessage (sps2 ++ [0x00, 0x02, 0xaa, 0xbb])).payload
        = ⟨sps2 ++ (0x00 :: 0x02 :: ([0xaa, 0xbb] ++ [])), []⟩ ∧
    (0x00 : UInt8).toNat * 256 + (0x02 : UInt8).toNat = [(0xaa : UInt8), 0xbb].length ∧
    (ParseSPS2 sampleDerived (sampleMessage (sps2 ++ [0x00, 0x02, 0xaa, 0xbb]))
        = .done sampleDerived () ↔ [0xaa, 0xbb] = bytesOf sampleDerived.pdmConf) ∧
    ([0xaa, 0xbb] ≠ bytesOf sampleDerived.pdmConf →
      ParseSPS2 sampleDerived (sampleMessage (sps2 ++ [0x00, 0x02, 0xaa, 0xbb]))
        = .fail sampleDerived .invalidConf) ∧
    (ParseSPS2 sampleDerived (sampleMessage (sps2 ++ [0x00, 0x02, 0xaa, 0xbb]))
        = .done sampleDerived () ∨
      ∃ e, ParseSPS2 sampleDerived (sampleMessage (sps2 ++ [0x00, 0x02, 0xaa, 0xbb]))
        = .fail sampleDerived e) :=
  ⟨by rfl, by decide,
    ParseSPS2_confirmation sampleDerived (sampleMessage (sps2 ++ [0x00, 0x02, 0xaa, 0xbb]))
      0x00 0x02 [0xaa, 0xbb] [] [] (by rfl) (by decide)⟩

theorem cmacNew_of_length (b : Bytes) (h : b.length = 16) : cmacNew b = true := by
  simp [cmacNew, h]

/-- A run of `computePairData` that returns an error has stopped at one of the
three calls of `crypto/ecdh`: the session is unchanged, or, when `ECDH` itself
failed, only `sharedSecret` was written, with nil. -/
theorem computePairData_fail (K : Crypto) (c c1 : Pair) (e : Error)
    (h : computePairData K c = .fail c1 e) :
    (c1 = c ∧ (e = .invalidPrivateKey ∨ e = .invalidPublicKey)) ∨
    (c1 = { c with sharedSecret := none } ∧ e = .ecdhFailed) := by
  unfold computePairData at h
  split at h
  · injection h with h1 h2
    exact Or.inl ⟨h1.symm, Or.inl h2.symm⟩
  split at h
  · injection h with h1 h2
    exact Or.inl ⟨h1.symm, Or.inr h2.symm⟩
  split at h
  · injection h with h1 h2
    exact Or.inr ⟨h1.symm, h2.symm⟩
  rename_i secret hs
  dsimp only at h
  split at h
  · rename_i e1 e2 e3 e4 h1 h2 h3 h4
    have hk : cmacNew (e1 ++ e2 ++ e3 ++ e4) = true := by
      apply cmacNew_of_length
      simp only [List.length_append, lastBytes_length _ _ _ h1, lastBytes_length _ _ _ h2,
        lastBytes_length _ _ _ h3, lastBytes_length _ _ _ h4]
    have hc : ∀ key data, cmacNew (K.cmac key data) = true :=
      fun key data => cmacNew_of_length _ (K.cmac_length key data)
    simp only [hk, hc, bytesOf, Option.getD_some, Bool.true_eq_false, if_false] at h
    exact Exec.noConfusion h
  · exact Exec.noConfusion h

/-- Without a peer public key `computePairData` stops at `NewPublicKey`, if not
before: the point it is given is the single byte `0x04`. -/
theorem computePairData_no_peer (K : Crypto) (c : Pair) (h : c.pdmPublic = none) :
    computePairData K c = .fail c .invalidPrivateKey ∨
    computePairData K c = .fail c .invalidPublicKey := by
  have hp : K.validPublic (0x04 :: bytesOf c.pdmPublic) = false := by
    cases hv : K.validPublic (0x04 :: bytesOf c.pdmPublic) with
    | false => rfl
    | true =>
      have hl := K.validPublic_length _ hv
      rw [h] at hl
      simp [bytesOf] at hl
  unfold computePairData
  by_cases h1 : K.validPrivate (bytesOf c.podPrivate) = false
  · left
    rw [if_pos h1]
  · right
    rw [if_neg h1, if_pos hp]

/-- The method `GenerateSPS1` builds its payload, which cannot fail, and then
does what `computePairData` does. -/
theorem GenerateSPS1_eq (K : Crypto) (c : Pair) :
    GenerateSPS1 K c =
      match computePairData K c with
      | .done c1 _ => .done c1 (NewMessage .pairing c.podID c.pdmID
          (sps1 ++ lengthBytes (bytesOf c.podPublic ++ bytesOf c.podNonce).length
            ++ (bytesOf c.podPublic ++ bytesOf c.podNonce)))
      | .fail c1 e => .fail c1 e
      | .panic => .panic := by
  have hb : buildStringByte [sps1]
      (FieldMap.set [] sps1 (bytesOf c.podPublic ++ bytesOf c.podNonce))
      = .ok (sps1 ++ lengthBytes (bytesOf c.podPublic ++ bytesOf c.podNonce).length
            ++ (bytesOf c.podPublic ++ bytesOf c.podNonce)) := by
    simp [buildStringByte, buildLoop, FieldMap.bytesAt, FieldMap.set, FieldMap.get,
      FieldMap.remove]
  unfold GenerateSPS1
  rw [hb]

/-! ## Truncated payloads -/

/-- C5: on a truncated payload `parseStringByte` does not return an error, it
panics.  With `"SPS0="` expected: an empty payload (the tag is cut), the tag and
one byte (the length is cut), the tag, a declared length of 5 and one byte (the
value is cut); length equal to capacity in each. -/
theorem parseStringByte_truncated :
    parseStringByte [sps0] ⟨[], []⟩ = .panic ∧
    parseStringByte [sps0] ⟨sps0 ++ [0x00], []⟩ = .panic ∧
    parseStringByte [sps0] ⟨sps0 ++ [0x00, 0x05, 0x01], []⟩ = .panic := by
  decide

/-! ## Calls out of order -/

/-- C8, as stated, fails: on a fresh session, where `pdmConf` is nil, `ParseSPS2`
accepts the "SPS2=" field with a value of length zero. -/
theorem ParseSPS2_fresh_accepts :
    Pair.fresh.pdmConf = none ∧
    ParseSPS2 Pair.fresh (sampleMessage (sps2 ++ [0x00, 0x00])) = .done Pair.fresh () := by
  decide

/-- C8, amended: on a session on which the derivation has not run (`pdmConf`
nil), `ParseSPS2` returns an error for every payload that `parseStringByte`
refuses and for every well-formed "SPS2=" field whose value is not empty; the
well-formed field with a value of length zero it accepts. -/
theorem ParseSPS2_without_derivation (c : Pair) (msg : Message) (h : c.pdmConf = none) :
    (∀ e, parseStringByte [sps2] msg.payload = .error e → ParseSPS2 c msg = .fail c e) ∧
    (∀ (b0 b1 : UInt8) (value tail spare : Bytes),
      msg.payload = ⟨sps2 ++ (b0 :: b1 :: (value ++ tail)), spare⟩ →
      b0.toNat * 256 + b1.toNat = value.length →
      (value ≠ [] → ParseSPS2 c msg = .fail c .invalidConf) ∧
      (value = [] → ParseSPS2 c msg = .done c ())) := by
  constructor
  · intro e he
    simp only [ParseSPS2, he]
  · intro b0 b1 value tail spare hp hlen
    rw [ParseSPS2_field c msg b0 b1 value tail spare hp hlen, h]
    constructor
    · intro hv
      have h1 : bytesOf none ≠ value := fun e => hv e.symm
      rw [if_pos h1]
    · intro hv
      subst hv
      rfl

theorem ParseSPS2_without_derivation_witness :
    sampleLocal.pdmConf = none ∧
    ParseSPS2 sampleLocal (sampleMessage (sps2 ++ [0x00, 0x01, 0xaa]))
      = .fail sampleLocal .invalidConf ∧
    ParseSPS2 sampleLocal (sampleMessage (sps0 ++ [0x00, 0x01, 0xaa]))
      = .fail sampleLocal .nameNotFound :=
  ⟨by rfl,
    ((ParseSPS2_without_derivation sampleLocal (sampleMessage (sps2 ++ [0x00, 0x01, 0xaa]))
      (by rfl)).2 0x00 0x01 [0xaa] [] [] (by rfl) (by decide)).1 (by decide),
    (ParseSPS2_without_derivation sampleLocal (sampleMessage (sps0 ++ [0x00, 0x01, 0xaa]))
      (by rfl)).1 .nameNotFound (by decide)⟩

/-- C9, as stated, fails: on the session that `ParseSPS0` leaves, with local key
material and no peer data, `GenerateSPS1` returns an error and no message. -/
theorem GenerateSPS1_without_peer :
    ParseSPS0 sampleIdent sampleSPS0 sampleEntropy = .done sampleLocal () ∧
    sampleLocal.pdmPublic = none ∧ sampleLocal.pdmNonce = none ∧
    GenerateSPS1 sampleCrypto sampleLocal = .fail sampleLocal .invalidPublicKey := by
  decide

/-- C9, amended: `GenerateSPS1` runs the derivation, which needs the peer's
public key.  On every session whose `pdmPublic` is absent it returns an error and
no message and leaves the session as it was; on every session on which
`computePairData` succeeds it returns, with no error, the message whose payload
is "SPS1=", the two length bytes and podPublic || podNonce. -/
theorem GenerateSPS1_peer (K : Crypto) (c : Pair) :
    (c.pdmPublic = none → ∃ e, GenerateSPS1 K c = .fail c e) ∧
    (∀ c1, computePairData K c = .done c1 () →
      GenerateSPS1 K c = .done c1 (NewMessage .pairing c.podID c.pdmID
        (sps1 ++ lengthBytes (bytesOf c.podPublic ++ bytesOf c.podNonce).length
          ++ (bytesOf c.podPublic ++ bytesOf c.podNonce)))) := by
  constructor
  · intro h
    rw [GenerateSPS1_eq]
    rcases computePairData_no_peer K c h with h1 | h1
    · exact ⟨_, by rw [h1]⟩
    · exact ⟨_, by rw [h1]⟩
  · intro c1 h
    rw [GenerateSPS1_eq, h]

theorem GenerateSPS1_peer_witness :
    (sampleLocal.pdmPublic = none ∧ ∃ e, GenerateSPS1 sampleCrypto sampleLocal = .fail sampleLocal e) ∧
    (computePairData sampleCrypto samplePeer = .done sampleDerived () ∧
      GenerateSPS1 sampleCrypto samplePeer
        = .done sampleDerived (NewMessage .pairing samplePeer.podID samplePeer.pdmID
          (sps1 ++ lengthBytes (bytesOf samplePeer.podPublic ++ bytesOf samplePeer.podNonce).length
            ++ (bytesOf samplePeer.podPublic ++ bytesOf samplePeer.podNonce)))) :=
  ⟨⟨by rfl, (GenerateSPS1_peer sampleCrypto sampleLocal).1 (by rfl)⟩,
    ⟨by rfl, (GenerateSPS1_peer sampleCrypto samplePeer).2 sampleDerived (by rfl)⟩⟩

/-! ## What each call writes -/

theorem ParseSP1SP2_after (c c1 : Pair) (msg : Message)
    (h : (ParseSP1SP2 c msg).after = some c1) :
    c1 = c ∨ c1 = { c with podID := msg.destination, pdmID := msg.source } := by
  unfold ParseSP1SP2 at h
  split at h
  · exact Option.noConfusion h
  · injection h with h1
    exact Or.inl h1.symm
  · injection h with h1
    exact Or.inr h1.symm

theorem ParseSPS0_after (c c1 : Pair) (msg : Message) (rnd : Entropy)
    (h : (ParseSPS0 c msg rnd).after = some c1) :
    c1 = c ∨ c1 = { c with
      pdmNonce := c.pdmNonce.map (fun d => goCopy d sps0)
      podNonce := some rnd.nonce
      podPrivate := some rnd.privateKey
      podPublic := some (rnd.publicKey.drop 1) } := by
  unfold ParseSPS0 at h
  split at h
  · exact Option.noConfusion h
  · injection h with h1
    exact Or.inl h1.symm
  · injection h with h1
    exact Or.inr h1.symm

theorem ParseSPS1_after (c c1 : Pair) (msg : Message)
    (h : (ParseSPS1 c msg).after = some c1) :
    c1 = c ∨ ∃ a b, c1 = { c with pdmPublic := some a, pdmNonce := some b } := by
  unfold ParseSPS1 at h
  split at h
  · exact Option.noConfusion h
  · injection h with h1
    exact Or.inl h1.symm
  · split at h
    · exact Option.noConfusion h
    · split at h
      · exact Option.noConfusion h
      · injection h with h1
        exact Or.inr ⟨_, _, h1.symm⟩

theorem Generate_after (c c1 : Pair) :
    ((GenerateSPS0 c).after = some c1 → c1 = c) ∧
    ((GenerateSPS2 c).after = some c1 → c1 = c) ∧
    ((GenerateP0 c).after = some c1 → c1 = c) := by
  refine ⟨?_, ?_, ?_⟩ <;>
  · intro h
    injection h with h1
    exact h1.symm

theorem ParseSPS2_after (c c1 : Pair) (msg : Message)
    (h : (ParseSPS2 c msg).after = some c1) : c1 = c := by
  unfold ParseSPS2 at h
  split at h
  · exact Option.noConfusion h
  · injection h with h1
    exact h1.symm
  · split at h <;>
    · injection h with h1
      exact h1.symm

theorem ParseSP0GP0_after (c c1 : Pair) (msg : Message)
    (h : (ParseSP0GP0 c msg).after = some c1) : c1 = c := by
  unfold ParseSP0GP0 at h
  split at h <;>
  · injection h with h1
    exact h1.symm

/-- The session `GenerateSPS1` leaves differs from the one it was given in the
five derived fields at most. -/
theorem GenerateSPS1_after (K : Crypto) (c c1 : Pair)
    (h : (GenerateSPS1 K c).after = some c1) :
    ∃ s k l p q, c1 = { c with
      sharedSecret := s, confKey := k, ltk := l, pdmConf := p, podConf := q } := by
  rw [GenerateSPS1_eq] at h
  split at h
  · rename_i c2 u hd
    injection h with h1
    subst h1
    obtain ⟨secret, e1, e2, e3, e4, _, _, _, _, _, hc⟩ := computePairData_done K c c2 hd
    exact ⟨_, _, _, _, _, hc⟩
  · rename_i c2 e hd
    injection h with h1
    subst h1
    rcases computePairData_fail K c c2 e hd with ⟨h2, _⟩ | ⟨h2, _⟩
    · exact ⟨c.sharedSecret, c.confKey, c.ltk, c.pdmConf, c.podConf, h2⟩
    · exact ⟨none, c.confKey, c.ltk, c.pdmConf, c.podConf, h2⟩
  · exact Option.noConfusion h

/-- Which fields a call can write: every field keeps its contents across every
call other than the one that fills it. -/
theorem step_frame (K : Crypto) (c c1 : Pair) (op : Op) (h : step K c op = some c1) :
    c1.sps0 = c.sps0 ∧
    ((∀ msg, op ≠ .parseSP1SP2 msg) → c1.podID = c.podID ∧ c1.pdmID = c.pdmID) ∧
    ((∀ msg rnd, op ≠ .parseSPS0 msg rnd) →
      c1.podPrivate = c.podPrivate ∧ c1.podPublic = c.podPublic ∧ c1.podNonce = c.podNonce) ∧
    ((∀ msg, op ≠ .parseSPS1 msg) → c1.pdmPublic = c.pdmPublic) ∧
    ((∀ msg, op ≠ .parseSPS1 msg) → (∀ msg rnd, op ≠ .parseSPS0 msg rnd) →
      c1.pdmNonce = c.pdmNonce) ∧
    (op ≠ .generateSPS1 →
      c1.sharedSecret = c.sharedSecret ∧ c1.confKey = c.confKey ∧ c1.ltk = c.ltk ∧
      c1.pdmConf = c.pdmConf ∧ c1.podConf = c.podConf) := by
  cases op with
  | parseSP1SP2 msg =>
    rcases ParseSP1SP2_after c c1 msg h with h1 | h1
    · subst h1
      simp
    · subst h1
      refine ⟨rfl, fun hn => absurd rfl (hn msg), ?_, ?_, ?_, ?_⟩ <;> simp
  | parseSPS0 msg rnd =>
    rcases ParseSPS0_after c c1 msg rnd h with h1 | h1
    · subst h1
      simp
    · subst h1
      refine ⟨rfl, ?_, fun hn => absurd rfl (hn msg rnd), ?_,
        fun _ hn => absurd rfl (hn msg rnd), ?_⟩ <;> simp
  | parseSPS1 msg =>
    rcases ParseSPS1_after c c1 msg h with h1 | ⟨a, b, h1⟩
    · subst h1
      simp
    · subst h1
      refine ⟨rfl, ?_, ?_, fun hn => absurd rfl (hn msg),
        fun hn => absurd rfl (hn msg), ?_⟩ <;> simp
  | generateSPS0 =>
    have h1 := (Generate_after c c1).1 h
    subst h1
    simp
  | generateSPS1 =>
    obtain ⟨s, k, l, p, q, h1⟩ := GenerateSPS1_after K c c1 h
    subst h1
    simp
  | parseSPS2 msg =>
    have h1 := ParseSPS2_after c c1 msg h
    subst h1
    simp
  | generateSPS2 =>
    have h1 := (Generate_after c c1).2.1 h
    subst h1
    simp
  | parseSP0GP0 msg =>
    have h1 := ParseSP0GP0_after c c1 msg h
    subst h1
    simp
  | generateP0 =>
    have h1 := (Generate_after c c1).2.2 h
    subst h1
    simp

/-- C10, as stated, fails: a second `ParseSP1SP2` replaces the identifiers, and
a second `ParseSPS0` replaces the local nonce, by whatever the new call
brings. -/
theorem fields_overwritten :
    sampleIdent.podID = some [0x0b] ∧
    ParseSP1SP2 sampleIdent
        ⟨.pairing, some [0x0a], some [0x0c], ⟨sp1 ++ [0x00, 0x00] ++ sp2 ++ [0x00, 0x00], []⟩⟩
      = .done { sampleIdent with podID := some [0x0c] } () ∧
    sampleLocal.podNonce = some (List.replicate 16 0x33) ∧
    ParseSPS0 sampleLocal sampleSPS0
        ⟨List.replicate 16 0x44, List.replicate 32 0x07, 0x04 :: List.replicate 64 0x11,
          by decide, by decide, by decide⟩
      = .done { sampleLocal with podNonce := some (List.replicate 16 0x44) } () := by
  decide

/-- C10, amended: a field is written by the call that fills it and by no other.
Across every call that returns, `podID` and `pdmID` keep their contents unless
the call is `ParseSP1SP2`; `podPrivate`, `podPublic` and `podNonce` unless it is
`ParseSPS0`; `pdmPublic` unless it is `ParseSPS1`; `pdmNonce` unless it is
`ParseSPS1` or `ParseSPS0`; `sharedSecret`, `confKey`, `ltk`, `pdmConf` and
`podConf` unless it is `GenerateSPS1`; the field `sps0` always. -/
theorem fields_written_by_owner (K : Crypto) (c c1 : Pair) (op : Op)
    (h : step K c op = some c1) :
    c1.sps0 = c.sps0 ∧
    ((∀ msg, op ≠ .parseSP1SP2 msg) → c1.podID = c.podID ∧ c1.pdmID = c.pdmID) ∧
    ((∀ msg rnd, op ≠ .parseSPS0 msg rnd) →
      c1.podPrivate = c.podPrivate ∧ c1.podPublic = c.podPublic ∧ c1.podNonce = c.podNonce) ∧
    ((∀ msg, op ≠ .parseSPS1 msg) → c1.pdmPublic = c.pdmPublic) ∧
    ((∀ msg, op ≠ .parseSPS1 msg) → (∀ msg rnd, op ≠ .parseSPS0 msg rnd) →
      c1.pdmNonce = c.pdmNonce) ∧
    (op ≠ .generateSPS1 →
      c1.sharedSecret = c.sharedSecret ∧ c1.confKey = c.confKey ∧ c1.ltk = c.ltk ∧
      c1.pdmConf = c.pdmConf ∧ c1.podConf = c.podConf) :=
  step_frame K c c1 op h

theorem fields_written_by_owner_witness :
    step sampleCrypto sampleLocal (.parseSPS1 sampleSPS1) = some samplePeer ∧
    (samplePeer.sps0 = sampleLocal.sps0 ∧
    ((∀ msg, Op.parseSPS1 sampleSPS1 ≠ .parseSP1SP2 msg) →
      samplePeer.podID = sampleLocal.podID ∧ samplePeer.pdmID = sampleLocal.pdmID) ∧
    ((∀ msg rnd, Op.parseSPS1 sampleSPS1 ≠ .parseSPS0 msg rnd) →
      samplePeer.podPrivate = sampleLocal.podPrivate ∧
      samplePeer.podPublic = sampleLocal.podPublic ∧
      samplePeer.podNonce = sampleLocal.podNonce) ∧
    ((∀ msg, Op.parseSPS1 sampleSPS1 ≠ .parseSPS1 msg) →
      samplePeer.pdmPublic = sampleLocal.pdmPublic) ∧
    ((∀ msg, Op.parseSPS1 sampleSPS1 ≠ .parseSPS1 msg) →
      (∀ msg rnd, Op.parseSPS1 sampleSPS1 ≠ .parseSPS0 msg rnd) →
      samplePeer.pdmNonce = sampleLocal.pdmNonce) ∧
    (Op.parseSPS1 sampleSPS1 ≠ .generateSPS1 →
      samplePeer.sharedSecret = sampleLocal.sharedSecret ∧
      samplePeer.confKey = sampleLocal.confKey ∧ samplePeer.ltk = sampleLocal.ltk ∧
      samplePeer.pdmConf = sampleLocal.pdmConf ∧ samplePeer.podConf = sampleLocal.podConf)) :=
  ⟨by rfl,
    fields_written_by_owner sampleCrypto sampleLocal samplePeer (.parseSPS1 sampleSPS1) (by rfl)⟩

/-! ## No key without a derivation -/

theorem run_snoc (K : Crypto) (c : Pair) (ops : List Op) (op : Op) :
    run K c (ops ++ [op]) = (run K c ops).bind (fun c1 => step K c1 op) := by
  induction ops generalizing c with
  | nil =>
    simp only [List.nil_append, run, Option.some_bind]
    cases step K c op <;> rfl
  | cons a rest ih =>
    simp only [List.cons_append, run]
    cases step K c a with
    | none => rfl
    | some c2 => exact ih c2

/-- In every session reached from a fresh one by calls that return, a shared
secret comes with a long-term key of 16 bytes, the one a successful run of
`computePairData` on an earlier session of the same sequence has written. -/
theorem run_derived (K : Crypto) (ops : List Op) (c : Pair)
    (h : run K Pair.fresh ops = some c) (hs : c.sharedSecret ≠ none) :
    ∃ key, c.ltk = some key ∧ key.length = 16 ∧
      ∃ ops0 c0 c1, run K Pair.fresh ops0 = some c0 ∧
        computePairData K c0 = .done c1 () ∧ c1.ltk = some key := by
  induction ops using List.reverseRecOn generalizing c with
  | nil =>
    injection h with h1
    subst h1
    exact absurd rfl hs
  | append_singleton ops op ih =>
    rw [run_snoc] at h
    cases hr : run K Pair.fresh ops with
    | none =>
      rw [hr] at h
      exact Option.noConfusion h
    | some c2 =>
      rw [hr, Option.some_bind] at h
      by_cases hop : op = .generateSPS1
      · subst hop
        simp only [step] at h
        rw [GenerateSPS1_eq] at h
        split at h
        · rename_i c3 u hd
          injection h with h1
          subst h1
          obtain ⟨secret, e1, e2, e3, e4, _, _, _, _, _, hc⟩ :=
            computePairData_done K c2 c3 hd
          have hl : c3.ltk
              = some (K.cmac (K.cmac (e1 ++ e2 ++ e3 ++ e4) secret) (twitData 0x02 c2)) := by
            rw [hc]
          exact ⟨_, hl, K.cmac_length _ _, ops, c2, c3, hr, hd, hl⟩
        · rename_i c3 e hd
          injection h with h1
          subst h1
          rcases computePairData_fail K c2 c3 e hd with ⟨h2, _⟩ | ⟨h2, _⟩
          · subst h2
            exact ih c3 hr hs
          · subst h2
            exact absurd rfl hs
        · exact Option.noConfusion h
      · obtain ⟨_, _, _, _, _, hf⟩ := step_frame K c2 c op h
        obtain ⟨h1, _, h3, _, _⟩ := hf hop
        rw [h1] at hs
        rw [h3]
        exact ih c2 hr hs

/-- As long as no call panics, there is no zero-value key.  In every session
reached from a fresh `Pair` by any sequence of calls of the nine handlers that
return, with or without an error, `LTK` returns an error, or it returns, with no
error, a key of 16 bytes that is the `ltk` written by a run of `computePairData`
that succeeded on a session reached earlier. -/
theorem LTK_never_empty (K : Crypto) (ops : List Op) (c : Pair)
    (h : run K Pair.fresh ops = some c) :
    LTK c = .error .missingData ∨
    ∃ key, LTK c = .ok (some key) ∧ key.length = 16 ∧
      ∃ ops0 c0 c1, run K Pair.fresh ops0 = some c0 ∧
        computePairData K c0 = .done c1 () ∧ c1.ltk = some key := by
  by_cases hs : c.sharedSecret = none
  · left
    simp [LTK, hs]
  · right
    obtain ⟨key, hk, hl, hd⟩ := run_derived K ops c h hs
    refine ⟨key, ?_, hl, hd⟩
    simp [LTK, hs, hk]

theorem LTK_never_empty_witness :
    run sampleCrypto Pair.fresh
        [.parseSP1SP2 sampleSP1SP2, .generateSPS1, .parseSPS0 sampleSPS0 sampleEntropy,
          .parseSPS1 sampleSPS1, .generateSPS1] = some sampleDerived ∧
    (LTK sampleDerived = .error .missingData ∨
    ∃ key, LTK sampleDerived = .ok (some key) ∧ key.length = 16 ∧
      ∃ ops0 c0 c1, run sampleCrypto Pair.fresh ops0 = some c0 ∧
        computePairData sampleCrypto c0 = .done c1 () ∧ c1.ltk = some key) :=
  ⟨by rfl,
    LTK_never_empty sampleCrypto
      [.parseSP1SP2 sampleSP1SP2, .generateSPS1, .parseSPS0 sampleSPS0 sampleEntropy,
        .parseSPS1 sampleSPS1, .generateSPS1] sampleDerived (by rfl)⟩

/-! ## More on the codec -/

theorem Slice.sliceFrom_some (s d : Slice) (n : Nat) (h : s.sliceFrom n = some d) :
    n ≤ s.vis.length ∧ d = ⟨s.vis.drop n, s.spare⟩ := by
  unfold Slice.sliceFrom at h
  split at h
  · rename_i hn
    injection h with h1
    exact ⟨hn, h1.symm⟩
  · exact Option.noConfusion h

theorem Slice.sliceTo_some (s d : Slice) (n : Nat) (h : s.sliceTo n = some d) :
    d.vis = (s.vis ++ s.spare).take n := by
  unfold Slice.sliceTo at h
  split at h
  · injection h with h1
    rw [← h1]
    rfl
  · exact Option.noConfusion h

theorem Slice.index_two (s : Slice) (b0 b1 : UInt8) (h0 : s.index 0 = some b0)
    (h1 : s.index 1 = some b1) : s.vis = b0 :: b1 :: s.vis.drop 2 := by
  unfold Slice.index at h0 h1
  match hv : s.vis with
  | [] => rw [hv] at h0; exact Option.noConfusion h0
  | [a] => rw [hv] at h1; exact Option.noConfusion h1
  | a :: b :: r =>
    rw [hv] at h0 h1
    simp only [List.getElem?_cons_zero, List.getElem?_cons_succ, Option.some.injEq] at h0 h1
    rw [h0, h1]
    rfl

/-- A turn of the loop of `parseStringByte` that goes on to a map has read a
whole field below the length of the payload. -/
theorem parseLoop_ok_inv (name : GoString) (rest : List GoString) (vis spare : Bytes)
    (ret m : FieldMap Slice) (h : parseLoop (name :: rest) ⟨vis, spare⟩ ret = .ok m) :
    ∃ b0 b1 v tail, vis = name ++ (b0 :: b1 :: (v ++ tail)) ∧
      b0.toNat <<< 8 ||| b1.toNat = v.length ∧
      parseLoop rest ⟨tail, spare⟩ (ret.set name ⟨v, tail ++ spare⟩) = .ok m := by
  have h0 := h
  unfold parseLoop at h
  dsimp only at h
  split at h
  · exact Outcome.noConfusion h
  rename_i head hhead
  split at h
  · exact Outcome.noConfusion h
  rename_i hname
  split at h
  · exact Outcome.noConfusion h
  rename_i data1 hdata1
  split at h
  · rename_i b0 b1 hb0 hb1
    split at h
    · exact Outcome.noConfusion h
    split at h
    · exact Outcome.noConfusion h
    rename_i value hvalue data2 hdata2
    obtain ⟨hn, hd1⟩ := Slice.sliceFrom_some _ _ _ hdata1
    have hv := Slice.sliceTo_some _ _ _ hhead
    dsimp only at hn hd1 hv
    rw [List.take_append_of_le_length hn] at hv
    have hname1 : vis.take name.length = name := by
      rw [← hv]
      exact not_not.mp hname
    have hidx := Slice.index_two data1 b0 b1 hb0 hb1
    obtain ⟨hl, _⟩ := Slice.sliceFrom_some _ _ _ hdata2
    rw [hd1] at hidx hl
    dsimp only at hidx hl
    have hl2 : b0.toNat <<< 8 ||| b1.toNat ≤ ((vis.drop name.length).drop 2).length := by
      rw [List.length_drop]
      omega
    have hvis : vis = name ++ (b0 :: b1 ::
        (((vis.drop name.length).drop 2).take (b0.toNat <<< 8 ||| b1.toNat)
          ++ ((vis.drop name.length).drop 2).drop (b0.toNat <<< 8 ||| b1.toNat))) := by
      rw [List.take_append_drop, ← hidx]
      conv => lhs; rw [← List.take_append_drop name.length vis, hname1]
    have hlen : b0.toNat <<< 8 ||| b1.toNat
        = (((vis.drop name.length).drop 2).take (b0.toNat <<< 8 ||| b1.toNat)).length := by
      rw [List.length_take]
      omega
    refine ⟨b0, b1, _, _, hvis, hlen, ?_⟩
    rw [hvis, parseLoop_field name rest b0 b1 _ _ spare ret hlen] at h0
    exact h0
  · exact Outcome.noConfusion h

theorem ofNat_toNat (x : UInt8) : UInt8.ofNat x.toNat = x := by
  cases x with
  | mk v =>
    apply congrArg UInt8.mk
    apply BitVec.eq_of_toNat_eq
    simp [UInt8.toNat]

theorem ofNat_mod (n : Nat) : UInt8.ofNat (n % 256) = UInt8.ofNat n := by
  apply congrArg UInt8.mk
  apply BitVec.eq_of_toNat_eq
  simp

/-- The two length bytes that `buildStringByte` writes are the quotient and
the remainder of the length by 256, each cut to a byte. -/
theorem lengthBytes_eq (n : Nat) : lengthBytes n = bigEndian16 n := by
  have e2 : ∀ x : Nat, x &&& 0xff = x % 256 := fun x => Nat.and_pow_two_sub_one_eq_mod x 8
  simp only [lengthBytes, bigEndian16, e2, Nat.shiftRight_eq_div_pow, ofNat_mod]

/-- The value of the two length bytes, read big-endian, is the length modulo
65536. -/
theorem bigEndian16_value (n : Nat) :
    ∃ b0 b1, bigEndian16 n = [b0, b1] ∧ b0.toNat * 256 + b1.toNat = n % 65536 := by
  refine ⟨_, _, rfl, ?_⟩
  have e1 : ∀ k, (UInt8.ofNat k).toNat = k % 256 := fun _ => rfl
  rw [e1, e1]
  omega

/-- Writing the length that two bytes encode gives the two bytes back. -/
theorem lengthBytes_encode (b0 b1 : UInt8) (n : Nat) (h : b0.toNat <<< 8 ||| b1.toNat = n) :
    lengthBytes n = [b0, b1] := by
  have h0 : b0.toNat < 256 := b0.val.isLt
  have h1 : b1.toNat < 256 := b1.val.isLt
  rw [shift_or_eq] at h
  rw [lengthBytes_eq, bigEndian16, ← h]
  have q : (b0.toNat * 256 + b1.toNat) / 256 = b0.toNat := by omega
  have r : (b0.toNat * 256 + b1.toNat) % 256 = b1.toNat := by omega
  rw [q, r, ofNat_toNat, ofNat_toNat]

theorem buildLoop_cons (name : GoString) (rest : List GoString) (values : FieldMap Bytes) :
    buildLoop (name :: rest) values []
      = name ++ lengthBytes (values.bytesAt name).length ++ values.bytesAt name
        ++ buildLoop rest values [] := by
  rw [buildLoop, buildLoop_append]
  simp only [List.nil_append]

/-- The buffer of `buildStringByte` holds the layout of the spec, whatever the
lengths of the values. -/
theorem buildLoop_layout (names : List GoString) (values : FieldMap Bytes) :
    buildLoop names values [] = layoutSpec names values := by
  induction names with
  | nil => rfl
  | cons name rest ih =>
    rw [buildLoop_cons, layoutSpec, ih, lengthBytes_eq]
    unfold FieldMap.bytesAt
    cases values.get name with
    | none =>
      have e : bigEndian16 0 = [0x00, 0x00] := by decide
      simp only [Option.getD_none, List.length_nil, e, List.append_nil]
    | some v => rfl

/-! ## The length field -/

theorem bytesAt_single (name : GoString) (v : Bytes) :
    FieldMap.bytesAt [(name, v)] name = v := by
  simp [FieldMap.bytesAt, FieldMap.get]

theorem buildStringByte_single (name : GoString) (v : Bytes) :
    buildStringByte [name] [(name, v)] = .ok (name ++ lengthBytes v.length ++ v) := by
  unfold buildStringByte
  rw [buildLoop_cons, bytesAt_single]
  simp [buildLoop]

/-- C11, as stated, fails: for a value of exactly 65536 bytes `buildStringByte`
returns no error; it returns the tag, the length bytes 00 00 and the value. -/
theorem buildStringByte_oversize :
    (FieldMap.bytesAt [(p0, List.replicate 65536 0xa5)] p0).length = 65536 ∧
    buildStringByte [p0] [(p0, List.replicate 65536 0xa5)]
      = .ok (p0 ++ [0x00, 0x00] ++ List.replicate 65536 0xa5) := by
  have hl : lengthBytes 65536 = [0x00, 0x00] := by decide
  constructor
  · rw [bytesAt_single, List.length_replicate]
  · rw [buildStringByte_single, List.length_replicate, hl]

/-- C11, amended: `buildStringByte` has no failure for a value that is too
long.  For every list of tags and every mapping, whatever the lengths of the
values, it returns with no error the concatenation, in list order, of each
tag's bytes, two length bytes and the bytes of the value; the two length bytes
of a value of n bytes, read big-endian, hold n modulo 65536, which is n itself
when n is at most 65535. -/
theorem buildStringByte_no_error (names : List GoString) (values : FieldMap Bytes) :
    buildStringByte names values = .ok (layoutSpec names values) ∧
    (∀ n, ∃ b0 b1, bigEndian16 n = [b0, b1] ∧ b0.toNat * 256 + b1.toNat = n % 65536) ∧
    (∀ n, n ≤ 65535 → ∃ b0 b1, bigEndian16 n = [b0, b1] ∧ b0.toNat * 256 + b1.toNat = n) := by
  refine ⟨?_, ?_, ?_⟩
  · unfold buildStringByte
    rw [buildLoop_layout]
  · intro n
    exact bigEndian16_value n
  · intro n hn
    obtain ⟨b0, b1, hb, hv⟩ := bigEndian16_value n
    exact ⟨b0, b1, hb, by omega⟩

theorem buildStringByte_no_error_witness :
    buildStringByte [p0, sp1] [(p0, [0xa5])]
      = .ok (layoutSpec [p0, sp1] [(p0, [0xa5])]) ∧
    layoutSpec [p0, sp1] [(p0, [0xa5])] = p0 ++ [0x00, 0x01, 0xa5] ++ (sp1 ++ [0x00, 0x00]) ∧
    (∀ n, ∃ b0 b1, bigEndian16 n = [b0, b1] ∧ b0.toNat * 256 + b1.toNat = n % 65536) ∧
    ((65535 : Nat) ≤ 65535 ∧
      ∃ b0 b1, bigEndian16 65535 = [b0, b1] ∧ b0.toNat * 256 + b1.toNat = 65535) :=
  ⟨(buildStringByte_no_error [p0, sp1] [(p0, [0xa5])]).1,
    by decide,
    (buildStringByte_no_error [p0, sp1] [(p0, [0xa5])]).2.1,
    by decide,
    (buildStringByte_no_error [p0, sp1] [(p0, [0xa5])]).2.2 65535 (by decide)⟩

/-! ## The layout of the encoding -/

/-- C13: the layout of the encoding.  For every list of tag names and every
mapping whose listed values have at most 65535 bytes, `buildStringByte` returns
exactly the concatenation, in list order, of each tag's bytes, the length of its
value as two bytes and the bytes of the value, a tag that the mapping lacks
having the length bytes 00 00 and no value bytes; and the two length bytes of
each listed tag, read with the high byte first, give the length of its value. -/
theorem buildStringByte_layout (names : List GoString) (values : FieldMap Bytes)
    (h : ∀ name ∈ names, (values.bytesAt name).length ≤ 65535) :
    buildStringByte names values = .ok (layoutSpec names values) ∧
    ∀ name ∈ names, ∃ b0 b1, bigEndian16 (values.bytesAt name).length = [b0, b1] ∧
      b0.toNat * 256 + b1.toNat = (values.bytesAt name).length := by
  constructor
  · unfold buildStringByte
    rw [buildLoop_layout]
  · intro name hn
    obtain ⟨b0, b1, hb, hv⟩ := bigEndian16_value (values.bytesAt name).length
    have := h name hn
    exact ⟨b0, b1, hb, by omega⟩

theorem buildStringByte_layout_witness :
    (∀ name ∈ [sp1, sp2], (FieldMap.bytesAt [(sp1, [0x01, 0x02, 0x03])] name).length ≤ 65535) ∧
    buildStringByte [sp1, sp2] [(sp1, [0x01, 0x02, 0x03])]
      = .ok (layoutSpec [sp1, sp2] [(sp1, [0x01, 0x02, 0x03])]) ∧
    (∀ name ∈ [sp1, sp2], ∃ b0 b1,
      bigEndian16 (FieldMap.bytesAt [(sp1, [0x01, 0x02, 0x03])] name).length = [b0, b1] ∧
      b0.toNat * 256 + b1.toNat = (FieldMap.bytesAt [(sp1, [0x01, 0x02, 0x03])] name).length) ∧
    layoutSpec [sp1, sp2] [(sp1, [0x01, 0x02, 0x03])]
      = sp1 ++ [0x00, 0x03] ++ [0x01, 0x02, 0x03] ++ (sp2 ++ [0x00, 0x00]) :=
  ⟨by decide,
    (buildStringByte_layout [sp1, sp2] [(sp1, [0x01, 0x02, 0x03])] (by decide)).1,
    (buildStringByte_layout [sp1, sp2] [(sp1, [0x01, 0x02, 0x03])] (by decide)).2,
    by decide⟩

/-! ## A tag that does not match -/

/-- The loop of `parseStringByte` steps over well-formed fields that carry the
expected names. -/
theorem parseLoop_fields (fs : List Field) (more : List GoString) (rest spare : Bytes)
    (ret : FieldMap Slice) (h : ∀ f ∈ fs, f.wellFormed) :
    ∃ ret1, parseLoop (fs.map Field.name ++ more) ⟨wireOf fs ++ rest, spare⟩ ret
      = parseLoop more ⟨rest, spare⟩ ret1 := by
  induction fs generalizing ret with
  | nil => exact ⟨ret, rfl⟩
  | cons f fs ih =>
    have hf : f.wellFormed := h f (List.mem_cons_self _ _)
    have hr : ∀ g ∈ fs, g.wellFormed := fun g hg => h g (List.mem_cons_of_mem _ hg)
    obtain ⟨ret1, h1⟩ := ih (ret.set f.name ⟨f.value, (wireOf fs ++ rest) ++ spare⟩) hr
    refine ⟨ret1, ?_⟩
    have e : wireOf (f :: fs) ++ rest
        = f.name ++ (f.b0 :: f.b1 :: (f.value ++ (wireOf fs ++ rest))) := by
      simp [wireOf, Field.wire]
    rw [List.map_cons, List.cons_append, e,
      parseLoop_field _ _ _ _ _ _ _ _ ((shift_or_eq f.b0 f.b1).trans hf)]
    exact h1

/-- The loop of `parseStringByte` at a tag that the remaining bytes do not
start with, although there are enough of them. -/
theorem parseLoop_mismatch (name : GoString) (post : List GoString) (rest spare : Bytes)
    (ret : FieldMap Slice) (hlen : name.length ≤ rest.length)
    (hne : rest.take name.length ≠ name) :
    parseLoop (name :: post) ⟨rest, spare⟩ ret = .error .nameNotFound := by
  have hc : name.length ≤ Slice.cap ⟨rest, spare⟩ := by
    simp only [Slice.cap]
    omega
  rw [parseLoop]
  simp only [Slice.sliceTo, if_pos hc, Slice.arr, List.take_append_of_le_length hlen, ne_eq,
    hne, not_false_eq_true, if_true]

/-- C12: a tag that does not match is refused.  For every list of expected tags
and every payload in which the tags before some expected tag are followed by
well-formed fields, and at the position of that tag at least as many bytes
remain as the tag is long but they differ from the tag, `parseStringByte`
returns an error, hence no map. -/
theorem parseStringByte_mismatch (fs : List Field) (name : GoString) (post : List GoString)
    (rest spare : Bytes) (h : ∀ f ∈ fs, f.wellFormed) (hlen : name.length ≤ rest.length)
    (hne : rest.take name.length ≠ name) :
    parseStringByte (fs.map Field.name ++ name :: post) ⟨wireOf fs ++ rest, spare⟩
      = .error .nameNotFound := by
  obtain ⟨ret1, h1⟩ := parseLoop_fields fs (name :: post) rest spare [] h
  unfold parseStringByte
  rw [h1]
  exact parseLoop_mismatch name post rest spare ret1 hlen hne

theorem parseStringByte_mismatch_witness :
    (∀ f ∈ [(⟨sp1, 0x00, 0x01, [0xaa]⟩ : Field)], f.wellFormed) ∧
    sp2.length ≤ (sp1 ++ [0x00, 0x00]).length ∧
    (sp1 ++ [0x00, 0x00]).take sp2.length ≠ sp2 ∧
    parseStringByte ([(⟨sp1, 0x00, 0x01, [0xaa]⟩ : Field)].map Field.name ++ sp2 :: [])
        ⟨wireOf [⟨sp1, 0x00, 0x01, [0xaa]⟩] ++ (sp1 ++ [0x00, 0x00]), []⟩
      = .error .nameNotFound :=
  ⟨by decide, by decide, by decide,
    parseStringByte_mismatch [⟨sp1, 0x00, 0x01, [0xaa]⟩] sp2 [] (sp1 ++ [0x00, 0x00]) []
      (by decide) (by decide) (by decide)⟩

/-! ## Bytes after the last field -/

/-- Bytes added after a payload that the loop of `parseStringByte` accepts do
not change what it stores: it accepts the longer payload, whatever its spare
capacity, and every key gets the same bytes. -/
theorem parseLoop_extend (names : List GoString) (vis spare extra spare1 : Bytes)
    (ret ret1 m : FieldMap Slice)
    (h : parseLoop names ⟨vis, spare⟩ ret = .ok m)
    (hr : ∀ k, (ret1.get k).map Slice.vis = (ret.get k).map Slice.vis) :
    ∃ m1, parseLoop names ⟨vis ++ extra, spare1⟩ ret1 = .ok m1 ∧
      ∀ k, (m1.get k).map Slice.vis = (m.get k).map Slice.vis := by
  induction names generalizing vis ret ret1 with
  | nil =>
    injection h with h1
    subst h1
    exact ⟨ret1, rfl, hr⟩
  | cons name rest ih =>
    obtain ⟨b0, b1, v, tail, hvis, hlen, hgo⟩ := parseLoop_ok_inv name rest vis spare ret m h
    have hr1 : ∀ k, ((ret1.set name ⟨v, (tail ++ extra) ++ spare1⟩).get k).map Slice.vis
        = ((ret.set name ⟨v, tail ++ spare⟩).get k).map Slice.vis := by
      intro k
      rw [FieldMap.get_set, FieldMap.get_set]
      by_cases hk : name = k
      · simp [hk]
      · simp [hk, hr k]
    obtain ⟨m1, hm1, hget⟩ := ih tail _ _ hgo hr1
    refine ⟨m1, ?_, hget⟩
    have e : vis ++ extra = name ++ (b0 :: b1 :: (v ++ (tail ++ extra))) := by
      rw [hvis]
      simp
    rw [e, parseLoop_field name rest b0 b1 v (tail ++ extra) spare1 ret1 hlen]
    exact hm1

/-- C18: trailing bytes are ignored.  For every list of tags and every payload
on which `parseStringByte` returns a map, it also returns a map on the payload
with any bytes appended (whatever the spare capacity of the longer payload), and
the two maps have the same keys, each with the same value bytes. -/
theorem parseStringByte_trailing (names : List GoString) (vis spare extra spare1 : Bytes)
    (m : FieldMap Slice) (h : parseStringByte names ⟨vis, spare⟩ = .ok m) :
    ∃ m1, parseStringByte names ⟨vis ++ extra, spare1⟩ = .ok m1 ∧
      ∀ k, (m1.get k).map Slice.vis = (m.get k).map Slice.vis :=
  parseLoop_extend names vis spare extra spare1 [] [] m h (fun _ => rfl)

theorem parseStringByte_trailing_witness :
    parseStringByte [sps0] ⟨sps0 ++ [0x00, 0x01, 0xaa], []⟩
      = .ok [(sps0, ⟨[0xaa], []⟩)] ∧
    ∃ m1, parseStringByte [sps0] ⟨sps0 ++ [0x00, 0x01, 0xaa] ++ [0xbb, 0xcc], [0xdd]⟩ = .ok m1 ∧
      ∀ k, (m1.get k).map Slice.vis
        = (FieldMap.get [(sps0, (⟨[0xaa], []⟩ : Slice))] k).map Slice.vis :=
  ⟨by decide,
    parseStringByte_trailing [sps0] (sps0 ++ [0x00, 0x01, 0xaa]) [] [0xbb, 0xcc] [0xdd]
      [(sps0, ⟨[0xaa], []⟩)] (by decide)⟩

/-! ## Decoding is sound -/

theorem get_contents (m : FieldMap Slice) (k : GoString) :
    (contents m).get k = (m.get k).map Slice.vis := by
  induction m with
  | nil => rfl
  | cons p rest ih =>
    obtain ⟨k1, v⟩ := p
    by_cases h : k1 = k
    · simp [contents, FieldMap.get, h]
    · simp [contents, FieldMap.get, h, ih]

theorem shift_or_le (b0 b1 : UInt8) : b0.toNat <<< 8 ||| b1.toNat ≤ 65535 := by
  have h0 : b0.toNat < 256 := b0.val.isLt
  have h1 : b1.toNat < 256 := b1.val.isLt
  rw [shift_or_eq]
  omega

/-- What the loop of `parseStringByte` has done when it returns a map, the
expected names being pairwise distinct: the keys outside the names are as they
were, every name has a value of at most 65535 bytes, and encoding the map under
the names gives back the head of the payload. -/
theorem parseLoop_sound (names : List GoString) (vis spare : Bytes)
    (ret m : FieldMap Slice) (hnd : names.Nodup)
    (h : parseLoop names ⟨vis, spare⟩ ret = .ok m) :
    (∀ k, k ∉ names → m.get k = ret.get k) ∧
    (∀ k ∈ names, ∃ v, m.get k = some v ∧ v.vis.length ≤ 65535) ∧
    List.IsPrefix (buildLoop names (contents m) []) vis := by
  induction names generalizing vis ret with
  | nil =>
    injection h with h1
    subst h1
    refine ⟨fun _ _ => rfl, ?_, ?_⟩
    · intro k hk
      exact absurd hk (List.not_mem_nil k)
    · exact List.nil_prefix
  | cons name rest ih =>
    obtain ⟨b0, b1, v, tail, hvis, hlen, hgo⟩ := parseLoop_ok_inv name rest vis spare ret m h
    have hnr : name ∉ rest := (List.nodup_cons.mp hnd).1
    obtain ⟨hout, hin, hpre⟩ := ih tail _ (List.nodup_cons.mp hnd).2 hgo
    have hname : m.get name = some ⟨v, tail ++ spare⟩ := by
      rw [hout name hnr, FieldMap.get_set, if_pos rfl]
    refine ⟨?_, ?_, ?_⟩
    · intro k hk
      have hk1 : k ∉ rest := fun hm => hk (List.mem_cons_of_mem _ hm)
      have hk2 : name ≠ k := fun e => hk (e ▸ List.mem_cons_self _ _)
      rw [hout k hk1, FieldMap.get_set, if_neg hk2]
    · intro k hk
      rcases List.mem_cons.mp hk with hk1 | hk1
      · subst hk1
        exact ⟨_, hname, by
          show v.length ≤ 65535
          rw [← hlen]
          exact shift_or_le b0 b1⟩
      · exact hin k hk1
    · have hb : (contents m).bytesAt name = v := by
        unfold FieldMap.bytesAt
        rw [get_contents, hname]
        rfl
      rw [buildLoop_cons, hb, lengthBytes_encode b0 b1 v.length hlen, hvis]
      obtain ⟨t, ht⟩ := hpre
      refine ⟨t, ?_⟩
      rw [← ht]
      simp

/-- C19: decoding is sound.  For every list of pairwise distinct tag names and
every payload on which `parseStringByte` returns a map, the keys of the map are
exactly the listed tags, every value in the map has at most 65535 bytes, and
`buildStringByte` on the names and the map returns, with no error, a prefix of
the payload. -/
theorem parseStringByte_sound (names : List GoString) (vis spare : Bytes)
    (m : FieldMap Slice) (hnd : names.Nodup)
    (h : parseStringByte names ⟨vis, spare⟩ = .ok m) :
    (∀ k, (m.get k).isSome = true ↔ k ∈ names) ∧
    (∀ k v, m.get k = some v → v.vis.length ≤ 65535) ∧
    ∃ payload, buildStringByte names (contents m) = .ok payload ∧
      List.IsPrefix payload vis := by
  obtain ⟨hout, hin, hpre⟩ := parseLoop_sound names vis spare [] m hnd h
  refine ⟨?_, ?_, _, rfl, hpre⟩
  · intro k
    constructor
    · intro hk
      by_contra hn
      rw [hout k hn] at hk
      exact Bool.noConfusion hk
    · intro hk
      obtain ⟨v, hv, _⟩ := hin k hk
      rw [hv]
      rfl
  · intro k v hv
    by_cases hk : k ∈ names
    · obtain ⟨v1, hv1, hl⟩ := hin k hk
      rw [hv] at hv1
      injection hv1 with hv2
      rw [hv2]
      exact hl
    · rw [hout k hk] at hv
      exact Option.noConfusion hv

theorem parseStringByte_sound_witness :
    [sp1, sp2].Nodup ∧
    parseStringByte [sp1, sp2] ⟨sp1 ++ [0x00, 0x01, 0xaa] ++ sp2 ++ [0x00, 0x00, 0xbb], []⟩
      = .ok [(sp2, ⟨[], [0xbb]⟩), (sp1, ⟨[0xaa], sp2 ++ [0x00, 0x00, 0xbb]⟩)] ∧
    (∀ k, (FieldMap.get [(sp2, (⟨[], [0xbb]⟩ : Slice)),
        (sp1, ⟨[0xaa], sp2 ++ [0x00, 0x00, 0xbb]⟩)] k).isSome = true ↔ k ∈ [sp1, sp2]) ∧
    (∀ k v, FieldMap.get [(sp2, (⟨[], [0xbb]⟩ : Slice)),
        (sp1, ⟨[0xaa], sp2 ++ [0x00, 0x00, 0xbb]⟩)] k = some v → v.vis.length ≤ 65535) ∧
    ∃ payload, buildStringByte [sp1, sp2]
        (contents [(sp2, ⟨[], [0xbb]⟩), (sp1, ⟨[0xaa], sp2 ++ [0x00, 0x00, 0xbb]⟩)])
        = .ok payload ∧
      List.IsPrefix payload (sp1 ++ [0x00, 0x01, 0xaa] ++ sp2 ++ [0x00, 0x00, 0xbb]) :=
  ⟨by decide, by decide,
    parseStringByte_sound [sp1, sp2] (sp1 ++ [0x00, 0x01, 0xaa] ++ sp2 ++ [0x00, 0x00, 0xbb]) []
      [(sp2, ⟨[], [0xbb]⟩), (sp1, ⟨[0xaa], sp2 ++ [0x00, 0x00, 0xbb]⟩)] (by decide) (by decide)⟩

/-! ## The first key -/

theorem lastBytes_of_le (b : Bytes) (n : Nat) (h : n ≤ b.length) :
    lastBytes b n = some (b.drop (b.length - n)) := by
  simp only [lastBytes, if_pos h]

/-- C14: the first key.  For every session whose podPublic, pdmPublic, podNonce
and pdmNonce have at least 4 bytes each and on which `computePairData` gets as
far as the first CMAC (both keys accepted, ECDH returns a secret), the key of
that CMAC is 16 bytes long and is the last 4 bytes of podPublic, of pdmPublic, of
podNonce and of pdmNonce, in that order: `computePairData` returns without error
and `confKey` and `ltk` are CMACs under the CMAC of the secret under that key. -/
theorem firstKey_construction (K : Crypto) (c : Pair) (secret : Bytes)
    (h1 : 4 ≤ (bytesOf c.podPublic).length) (h2 : 4 ≤ (bytesOf c.pdmPublic).length)
    (h3 : 4 ≤ (bytesOf c.podNonce).length) (h4 : 4 ≤ (bytesOf c.pdmNonce).length)
    (hpriv : K.validPrivate (bytesOf c.podPrivate) = true)
    (hpub : K.validPublic (0x04 :: bytesOf c.pdmPublic) = true)
    (hs : K.ecdh (bytesOf c.podPrivate) (0x04 :: bytesOf c.pdmPublic) = some secret) :
    ∃ firstKey c1,
      firstKey = (bytesOf c.podPublic).drop ((bytesOf c.podPublic).length - 4)
        ++ (bytesOf c.pdmPublic).drop ((bytesOf c.pdmPublic).length - 4)
        ++ (bytesOf c.podNonce).drop ((bytesOf c.podNonce).length - 4)
        ++ (bytesOf c.pdmNonce).drop ((bytesOf c.pdmNonce).length - 4) ∧
      firstKey.length = 16 ∧
      computePairData K c = .done c1 () ∧
      c1.confKey = some (K.cmac (K.cmac firstKey secret)
        ([0x01] ++ twit ++ bytesOf c.podNonce ++ bytesOf c.pdmNonce ++ [0x00, 0x01])) ∧
      c1.ltk = some (K.cmac (K.cmac firstKey secret)
        ([0x02] ++ twit ++ bytesOf c.podNonce ++ bytesOf c.pdmNonce ++ [0x00, 0x01])) := by
  have hl : ((bytesOf c.podPublic).drop ((bytesOf c.podPublic).length - 4)
        ++ (bytesOf c.pdmPublic).drop ((bytesOf c.pdmPublic).length - 4)
        ++ (bytesOf c.podNonce).drop ((bytesOf c.podNonce).length - 4)
        ++ (bytesOf c.pdmNonce).drop ((bytesOf c.pdmNonce).length - 4)).length = 16 := by
    simp only [List.length_append, List.length_drop]
    omega
  have hc : ∀ key data, cmacNew (K.cmac key data) = true :=
    fun key data => cmacNew_of_length _ (K.cmac_length key data)
  have hb : ∀ x : Bytes, bytesOf (some x) = x := fun _ => rfl
  have hd : ∃ c1, computePairData K c = .done c1 () := by
    unfold computePairData
    simp only [hpriv, hpub, hs, Bool.true_eq_false, if_false, lastBytes_of_le _ _ h1,
      lastBytes_of_le _ _ h2, lastBytes_of_le _ _ h3, lastBytes_of_le _ _ h4,
      cmacNew_of_length _ hl, hc, hb]
    exact ⟨_, rfl⟩
  obtain ⟨c1, hd⟩ := hd
  obtain ⟨secret1, e1, e2, e3, e4, hs1, g1, g2, g3, g4, hf⟩ := computePairData_done K c c1 hd
  rw [hs] at hs1
  rw [lastBytes_of_le _ _ h1] at g1
  rw [lastBytes_of_le _ _ h2] at g2
  rw [lastBytes_of_le _ _ h3] at g3
  rw [lastBytes_of_le _ _ h4] at g4
  injection hs1 with hs1
  injection g1 with g1
  injection g2 with g2
  injection g3 with g3
  injection g4 with g4
  subst hs1 g1 g2 g3 g4
  refine ⟨_, c1, rfl, hl, hd, ?_, ?_⟩
  · rw [hf]
    rfl
  · rw [hf]
    rfl

theorem firstKey_construction_witness :
    (4 ≤ (bytesOf samplePeer.podPublic).length ∧ 4 ≤ (bytesOf samplePeer.pdmPublic).length ∧
      4 ≤ (bytesOf samplePeer.podNonce).length ∧ 4 ≤ (bytesOf samplePeer.pdmNonce).length) ∧
    (sampleCrypto.validPrivate (bytesOf samplePeer.podPrivate) = true ∧
      sampleCrypto.validPublic (0x04 :: bytesOf samplePeer.pdmPublic) = true ∧
      sampleCrypto.ecdh (bytesOf samplePeer.podPrivate) (0x04 :: bytesOf samplePeer.pdmPublic)
        = some (List.replicate 32 0x07)) ∧
    ∃ firstKey c1,
      firstKey = (bytesOf samplePeer.podPublic).drop ((bytesOf samplePeer.podPublic).length - 4)
        ++ (bytesOf samplePeer.pdmPublic).drop ((bytesOf samplePeer.pdmPublic).length - 4)
        ++ (bytesOf samplePeer.podNonce).drop ((bytesOf samplePeer.podNonce).length - 4)
        ++ (bytesOf samplePeer.pdmNonce).drop ((bytesOf samplePeer.pdmNonce).length - 4) ∧
      firstKey.length = 16 ∧
      computePairData sampleCrypto samplePeer = .done c1 () ∧
      c1.confKey = some (sampleCrypto.cmac (sampleCrypto.cmac firstKey (List.replicate 32 0x07))
        ([0x01] ++ twit ++ bytesOf samplePeer.podNonce ++ bytesOf samplePeer.pdmNonce
          ++ [0x00, 0x01])) ∧
      c1.ltk = some (sampleCrypto.cmac (sampleCrypto.cmac firstKey (List.replicate 32 0x07))
        ([0x02] ++ twit ++ bytesOf samplePeer.podNonce ++ bytesOf samplePeer.pdmNonce
          ++ [0x00, 0x01])) :=
  ⟨by decide, by decide,
    firstKey_construction sampleCrypto samplePeer (List.replicate 32 0x07)
      (by decide) (by decide) (by decide) (by decide) (by decide) (by decide) (by decide)⟩

/-! ## The confirmation values -/

/-- The two confirmation values that a successful run of `computePairData`
stores are CMACs, under `confKey`, of the two buffers it fills. -/
theorem computePairData_conf (K : Crypto) (c c1 : Pair)
    (h : computePairData K c = .done c1 ()) :
    ∃ confKey, c1.confKey = some confKey ∧
      c1.podNonce = c.podNonce ∧ c1.pdmNonce = c.pdmNonce ∧
      c1.pdmConf = some (K.cmac confKey
        (pdmConfData (bytesOf c.pdmNonce) (bytesOf c.podNonce))) ∧
      c1.podConf = some (K.cmac confKey
        (podConfData (bytesOf c.podNonce) (bytesOf c.pdmNonce))) := by
  obtain ⟨secret, e1, e2, e3, e4, _, _, _, _, _, hc⟩ := computePairData_done K c c1 h
  subst hc
  exact ⟨K.cmac (K.cmac (e1 ++ e2 ++ e3 ++ e4) secret) (twitData 0x01 c), rfl, rfl, rfl, rfl,
    rfl⟩

/-- C15: the SPS2 message carries the local confirmation value.  On every
session on which `computePairData` has succeeded, `GenerateSPS2` returns, with no
error and without writing the session, a message whose payload is "SPS2=", the
bytes 0x00 0x10 and the 16 bytes of CMAC(confKey, "KC_2_V" || podNonce ||
pdmNonce). -/
theorem GenerateSPS2_payload (K : Crypto) (c c1 : Pair)
    (h : computePairData K c = .done c1 ()) :
    ∃ confKey msg, c1.confKey = some confKey ∧
      (K.cmac confKey (kc2v ++ bytesOf c1.podNonce ++ bytesOf c1.pdmNonce)).length = 16 ∧
      GenerateSPS2 c1 = .done c1 msg ∧
      msg.payload.vis = sps2 ++ [0x00, 0x10]
        ++ K.cmac confKey (kc2v ++ bytesOf c1.podNonce ++ bytesOf c1.pdmNonce) := by
  obtain ⟨confKey, hk, hn1, hn2, _, hp⟩ := computePairData_conf K c c1 h
  have hl : lengthBytes 16 = [0x00, 0x10] := by decide
  have hb : buildStringByte [sps2] (FieldMap.set [] sps2 (bytesOf c1.podConf))
      = .ok (sps2 ++ [0x00, 0x10] ++ bytesOf c1.podConf) := by
    have e : FieldMap.set [] sps2 (bytesOf c1.podConf) = [(sps2, bytesOf c1.podConf)] := rfl
    rw [e, buildStringByte_single, hp]
    simp only [bytesOf, Option.getD_some, K.cmac_length, hl]
  refine ⟨confKey, NewMessage .pairing c1.podID c1.pdmID
    (sps2 ++ [0x00, 0x10] ++ bytesOf c1.podConf), hk, K.cmac_length _ _, ?_, ?_⟩
  · unfold GenerateSPS2
    rw [hb]
  · rw [hp, hn1, hn2]
    rfl

theorem GenerateSPS2_payload_witness :
    computePairData sampleCrypto samplePeer = .done sampleDerived () ∧
    ∃ confKey msg, sampleDerived.confKey = some confKey ∧
      (sampleCrypto.cmac confKey
        (kc2v ++ bytesOf sampleDerived.podNonce ++ bytesOf sampleDerived.pdmNonce)).length = 16 ∧
      GenerateSPS2 sampleDerived = .done sampleDerived msg ∧
      msg.payload.vis = sps2 ++ [0x00, 0x10]
        ++ sampleCrypto.cmac confKey
          (kc2v ++ bytesOf sampleDerived.podNonce ++ bytesOf sampleDerived.pdmNonce) :=
  ⟨by rfl, GenerateSPS2_payload sampleCrypto samplePeer sampleDerived (by rfl)⟩

/-- C16, as stated, fails: with the nonces swapped, the buffer of the local
confirmation is not the buffer of the peer confirmation (the labels differ), and
under the stand-in CMAC the two values differ as well. -/
theorem conf_not_symmetric :
    podConfData (List.replicate 16 0x55) (List.replicate 16 0x33)
      ≠ pdmConfData (List.replicate 16 0x55) (List.replicate 16 0x33) ∧
    sampleCrypto.cmac (List.replicate 16 0x01)
        (podConfData (List.replicate 16 0x55) (List.replicate 16 0x33))
      ≠ sampleCrypto.cmac (List.replicate 16 0x01)
        (pdmConfData (List.replicate 16 0x55) (List.replicate 16 0x33)) := by
  decide

/-- C16, amended: with its two nonce arguments swapped, the local-confirmation
computation feeds CMAC, under the same key, the label "KC_2_V" followed by
pdmNonce || podNonce, while the peer-confirmation computation feeds the label
"KC_2_U" followed by the same pdmNonce || podNonce; the two byte strings agree
after the label and are never equal.  These are the computations that fill
`podConf` and `pdmConf` on every successful run of `computePairData`. -/
theorem conf_labels (K : Crypto) (c : Pair) :
    (∀ pdmNonce podNonce : Bytes,
      podConfData pdmNonce podNonce = kc2v ++ (pdmNonce ++ podNonce) ∧
      pdmConfData pdmNonce podNonce = kc2u ++ (pdmNonce ++ podNonce) ∧
      podConfData pdmNonce podNonce ≠ pdmConfData pdmNonce podNonce) ∧
    (∀ c1, computePairData K c = .done c1 () →
      ∃ confKey, c1.confKey = some confKey ∧
        c1.podConf = some (K.cmac confKey
          (podConfData (bytesOf c.podNonce) (bytesOf c.pdmNonce))) ∧
        c1.pdmConf = some (K.cmac confKey
          (pdmConfData (bytesOf c.pdmNonce) (bytesOf c.podNonce)))) := by
  constructor
  · intro a b
    refine ⟨by simp [podConfData], by simp [pdmConfData], ?_⟩
    intro h
    simp [podConfData, pdmConfData, kc2u, kc2v] at h
  · intro c1 h
    obtain ⟨confKey, hk, _, _, hp, hq⟩ := computePairData_conf K c c1 h
    exact ⟨confKey, hk, hq, hp⟩

theorem conf_labels_witness :
    (∀ pdmNonce podNonce : Bytes,
      podConfData pdmNonce podNonce = kc2v ++ (pdmNonce ++ podNonce) ∧
      pdmConfData pdmNonce podNonce = kc2u ++ (pdmNonce ++ podNonce) ∧
      podConfData pdmNonce podNonce ≠ pdmConfData pdmNonce podNonce) ∧
    (computePairData sampleCrypto samplePeer = .done sampleDerived () ∧
      ∃ confKey, sampleDerived.confKey = some confKey ∧
        sampleDerived.podConf = some (sampleCrypto.cmac confKey
          (podConfData (bytesOf samplePeer.podNonce) (bytesOf samplePeer.pdmNonce))) ∧
        sampleDerived.pdmConf = some (sampleCrypto.cmac confKey
          (pdmConfData (bytesOf samplePeer.pdmNonce) (bytesOf samplePeer.podNonce)))) :=
  ⟨(conf_labels sampleCrypto samplePeer).1,
    by rfl,
    (conf_labels sampleCrypto samplePeer).2 sampleDerived (by rfl)⟩

/-! ## The peer's public key and nonce -/

theorem goCopy_full (n : Nat) (src : Bytes) (h : src.length = n) :
    goCopy (List.replicate n 0) src = src := by
  simp [goCopy, h]

theorem goCopy_zeros (n : Nat) (src : Bytes) :
    goCopy (List.replicate n 0) src = src.take n ++ List.replicate (n - src.length) 0 := by
  simp [goCopy]

/-- What `ParseSPS1` has read and stored when it returns no error. -/
theorem ParseSPS1_done (c c1 : Pair) (msg : Message) (h : ParseSPS1 c msg = .done c1 ()) :
    ∃ b0 b1 value tail,
      msg.payload.vis = sps1 ++ (b0 :: b1 :: (value ++ tail)) ∧
      b0.toNat * 256 + b1.toNat = value.length ∧
      64 ≤ value.length ∧
      c1 = { c with
        pdmPublic := some (value.take 64)
        pdmNonce := some ((value.drop 64).take 16
          ++ List.replicate (16 - (value.length - 64)) 0) } := by
  obtain ⟨t, src, dst, ⟨vis, spare⟩⟩ := msg
  unfold ParseSPS1 at h
  split at h
  · exact Exec.noConfusion h
  · exact Exec.noConfusion h
  rename_i sp hsp
  obtain ⟨b0, b1, v, tail, hvis, hlen, hgo⟩ := parseLoop_ok_inv sps1 [] vis spare [] sp hsp
  injection hgo with hgo
  subst hgo
  have hf : fieldAt (FieldMap.set [] sps1 ⟨v, tail ++ spare⟩) sps1 = ⟨v, tail ++ spare⟩ :=
    fieldAt_single sps1 _
  rw [hf] at h
  split at h
  · exact Exec.noConfusion h
  rename_i pub hpub
  split at h
  · exact Exec.noConfusion h
  rename_i non hnon
  obtain ⟨h64, hn⟩ := Slice.sliceFrom_some _ _ _ hnon
  have hp := Slice.sliceTo_some _ _ _ hpub
  dsimp only at h64 hn hp
  rw [List.take_append_of_le_length h64] at hp
  have hpl : (v.take 64).length = 64 := by
    rw [List.length_take]
    omega
  injection h with hc
  refine ⟨b0, b1, v, tail, hvis, (shift_or_eq b0 b1).symm.trans hlen, h64, ?_⟩
  rw [← hc, hp, hn, goCopy_full 64 _ hpl, goCopy_zeros, List.length_drop]

/-- C17, as stated, fails: on a value of 96 bytes, which `ParseSPS1` accepts,
`pdmNonce` is made of the bytes 64 to 79 of the value (0x55), not of its trailing
16 bytes (0x66). -/
theorem ParseSPS1_long_value :
    ParseSPS1 sampleLocal (sampleMessage (sps1 ++ [0x00, 0x60] ++ (List.replicate 64 0x22
        ++ List.replicate 16 0x55 ++ List.replicate 16 0x66)))
      = .done samplePeer () ∧
    samplePeer.pdmNonce = some (List.replicate 16 0x55) ∧
    (List.replicate 64 (0x22 : UInt8) ++ List.replicate 16 0x55 ++ List.replicate 16 0x66).drop
        ((List.replicate 64 (0x22 : UInt8) ++ List.replicate 16 0x55
          ++ List.replicate 16 0x66).length - 16)
      = List.replicate 16 0x66 := by
  decide

/-- C17, amended: for every message that `ParseSPS1` accepts, the value of the
"SPS1=" field has at least 64 bytes, `pdmPublic` afterwards is its first 64
bytes, and `pdmNonce` is the bytes 64 to 79 of the value, filled up with zero
bytes to 16 when the value ends before; for a value of exactly 80 bytes this is
its trailing 16 bytes. -/
theorem ParseSPS1_split (c c1 : Pair) (msg : Message) (h : ParseSPS1 c msg = .done c1 ()) :
    ∃ b0 b1 value tail,
      msg.payload.vis = sps1 ++ (b0 :: b1 :: (value ++ tail)) ∧
      b0.toNat * 256 + b1.toNat = value.length ∧
      64 ≤ value.length ∧
      c1.pdmPublic = some (value.take 64) ∧
      c1.pdmNonce = some ((value.drop 64).take 16
        ++ List.replicate (16 - (value.length - 64)) 0) ∧
      (value.length = 80 → c1.pdmNonce = some (value.drop (value.length - 16))) := by
  obtain ⟨b0, b1, value, tail, hvis, hlen, h64, hc⟩ := ParseSPS1_done c c1 msg h
  refine ⟨b0, b1, value, tail, hvis, hlen, h64, ?_, ?_, ?_⟩
  · rw [hc]
  · rw [hc]
  · intro h80
    rw [hc]
    have hd : (value.drop 64).length = 16 := by
      rw [List.length_drop]
      omega
    have ht : (value.drop 64).take 16 = value.drop 64 := by
      rw [← hd]
      exact List.take_length _
    simp only [ht, h80, Nat.sub_self, Nat.reduceSub, List.replicate_zero, List.append_nil]

theorem ParseSPS1_split_witness :
    ParseSPS1 sampleLocal sampleSPS1 = .done samplePeer () ∧
    ∃ b0 b1 value tail,
      sampleSPS1.payload.vis = sps1 ++ (b0 :: b1 :: (value ++ tail)) ∧
      b0.toNat * 256 + b1.toNat = value.length ∧
      64 ≤ value.length ∧
      samplePeer.pdmPublic = some (value.take 64) ∧
      samplePeer.pdmNonce = some ((value.drop 64).take 16
        ++ List.replicate (16 - (value.length - 64)) 0) ∧
      (value.length = 80 → samplePeer.pdmNonce = some (value.drop (value.length - 16))) :=
  ⟨by rfl, ParseSPS1_split sampleLocal samplePeer sampleSPS1 (by rfl)⟩

/-! ## What `ParseSPS0` writes -/

/-- C20: `ParseSPS0` on a session whose `pdmNonce` is populated overwrites its
first five bytes with the bytes of the string "SPS0=". -/
theorem ParseSPS0_overwrites_pdmNonce :
    samplePeer.pdmNonce = some (List.replicate 16 0x55) ∧
    ParseSPS0 samplePeer sampleSPS0 sampleEntropy
      = .done { samplePeer with
          pdmNonce := some ([0x53, 0x50, 0x53, 0x30, 0x3d] ++ List.replicate 11 0x55) } () := by
  decide

/-! ## The accessor of the long-term key -/

/-- C6, as stated, fails: after `ParseSP1SP2`, `ParseSPS0`, `ParseSPS1` and
`GenerateSPS1`, with no call of `ParseSPS2` at all, `LTK` returns the derived
key and no error.  The keys, the secret and the CMACs of this run are those of
P-256 and AES-CMAC. -/
theorem LTK_before_confirmation :
    run tableCrypto Pair.fresh
        [.parseSP1SP2 sampleSP1SP2, .parseSPS0 sampleSPS0 realEntropy,
          .parseSPS1 realSPS1, .generateSPS1] = some realDerived ∧
    LTK realDerived
      = .ok (some [0xa4, 0xa1, 0xf4, 0x9d, 0x37, 0xac, 0x0e, 0xa0, 0x05, 0x40, 0xe3, 0xd7,
          0x89, 0x06, 0x42, 0xf9]) := by
  constructor
  · decide
  · decide

/-- C6, amended: `LTK` returns an error in every session in which
`sharedSecret` is absent, so in every session on which the derivation has not
reached ECDH; once `GenerateSPS1` has returned without error, `LTK` returns the
derived key of 16 bytes and no error, whether `ParseSPS2` has not been called,
or has been called and has accepted the message, or has been called and has
refused it. -/
theorem LTK_gate (K : Crypto) (c : Pair) :
    (c.sharedSecret = none → LTK c = .error .missingData) ∧
    (∀ c1 msg, GenerateSPS1 K c = .done c1 msg →
      ∃ key, c1.ltk = some key ∧ key.length = 16 ∧ LTK c1 = .ok (some key) ∧
        ∀ msg2 c2, (ParseSPS2 c1 msg2 = .done c2 () ∨ ∃ e, ParseSPS2 c1 msg2 = .fail c2 e) →
          LTK c2 = .ok (some key)) := by
  constructor
  · intro h
    simp [LTK, h]
  · intro c1 msg h
    rw [GenerateSPS1_eq] at h
    split at h
    · rename_i c2 u hd
      injection h with h1 h2
      subst h1
      obtain ⟨secret, e1, e2, e3, e4, _, _, _, _, _, hc⟩ := computePairData_done K c c2 hd
      have hk : LTK c2
          = .ok (some (K.cmac (K.cmac (e1 ++ e2 ++ e3 ++ e4) secret) (twitData 0x02 c))) := by
        rw [hc]
        simp [LTK]
      refine ⟨K.cmac (K.cmac (e1 ++ e2 ++ e3 ++ e4) secret) (twitData 0x02 c), ?_,
        K.cmac_length _ _, hk, ?_⟩
      · rw [hc]
      · intro msg2 c3 h3
        have ha : (ParseSPS2 c2 msg2).after = some c3 := by
          rcases h3 with h3 | ⟨e, h3⟩
          · rw [h3]
            rfl
          · rw [h3]
            rfl
        rw [ParseSPS2_after c2 c3 msg2 ha]
        exact hk
    · exact Exec.noConfusion h
    · exact Exec.noConfusion h

theorem LTK_gate_witness :
    (Pair.fresh.sharedSecret = none ∧ LTK Pair.fresh = .error .missingData) ∧
    (GenerateSPS1 tableCrypto realPeer
        = .done realDerived (NewMessage .pairing (some [0x0b]) (some [0x0a])
          (sps1 ++ [0x00, 0x50] ++ realPodPublic ++ realPodNonce)) ∧
      ParseSPS2 realDerived (sampleMessage (sps2 ++ [0x00, 0x01, 0xaa]))
        = .fail realDerived .invalidConf ∧
      ∃ key, realDerived.ltk = some key ∧ key.length = 16 ∧
        LTK realDerived = .ok (some key) ∧
        ∀ msg2 c2, (ParseSPS2 realDerived msg2 = .done c2 () ∨
            ∃ e, ParseSPS2 realDerived msg2 = .fail c2 e) →
          LTK c2 = .ok (some key)) :=
  ⟨⟨by rfl, (LTK_gate tableCrypto Pair.fresh).1 (by rfl)⟩,
    by decide,
    by decide,
    (LTK_gate tableCrypto realPeer).2 realDerived
      (NewMessage .pairing (some [0x0b]) (some [0x0a])
        (sps1 ++ [0x00, 0x50] ++ realPodPublic ++ realPodNonce)) (by decide)⟩

/-! ## A zero-value key after two panics -/

/-- A call that returns leaves the session that `step` gives. -/
theorem stepRecovered_of_step (K : Crypto) (c c1 : Pair) (op : Op)
    (h : step K c op = some c1) : stepRecovered K c op = c1 := by
  unfold stepRecovered
  rw [h]

/-- C7: a key that is nil, with no error.  `ParseSPS1` on a message that
declares a value of length zero and goes on with the 64 bytes of a public key
panics at `sp[sps1][64:]`, after it has written `pdmPublic`; `ParseSPS0` then
returns; `GenerateSPS1` then panics at `c.pdmNonce[len(c.pdmNonce)-endSize:]`,
after it has written `sharedSecret`.  On the session that is left `LTK` returns
a nil key and no error.  The keys and the secret are those of P-256. -/
theorem LTK_after_panics :
    ParseSPS1 Pair.fresh shortSPS1 = .panic ∧
    GenerateSPS1 tableCrypto
        (runRecovered tableCrypto Pair.fresh
          [.parseSPS1 shortSPS1, .parseSPS0 sampleSPS0 realEntropy]) = .panic ∧
    runRecovered tableCrypto Pair.fresh
        [.parseSPS1 shortSPS1, .parseSPS0 sampleSPS0 realEntropy, .generateSPS1]
      = { Pair.fresh with
          pdmPublic := some realPdmPublic
          podNonce := some realPodNonce
          podPrivate := some realPodPrivate
          podPublic := some realPodPublic
          sharedSecret := some realSecret } ∧
    LTK (runRecovered tableCrypto Pair.fresh
        [.parseSPS1 shortSPS1, .parseSPS0 sampleSPS0 realEntropy, .generateSPS1])
      = .ok none := by
  decide

end PodFive
